import Mathlib

/-!
# Verification of the kcg-deck-maker deck-code codec

A shallow embedding of `src/utils/deckCode.ts` and `src/domain/validation.ts`
of the kcg-deck-maker repository.  Strings are modelled as `List Char`,
JavaScript exceptions as `Except DeckCodeError`, and `NaN` values arising from
`parseInt` as `Option` (`none` = NaN).  Source line numbers in the comments
refer to `src/utils/deckCode.ts` unless another file is named.
-/

namespace Kcg

/-- The `type` tag of `DeckCodeError` (src/types/deck.ts lines 96-123). -/
inductive DeckCodeErrorType
  | generation
  | copy
  | validation
  | decode
deriving DecidableEq, Repr

/-- `DeckCodeError`: tag plus human-readable message (src/types/deck.ts).
The optional `invalidId` / `originalError` payloads are not needed by any
claim and are omitted. -/
structure DeckCodeError where
  type : DeckCodeErrorType
  message : List Char
deriving DecidableEq, Repr

/-! ## JavaScript primitives -/

/-- ASCII decimal digit test (JS `\d`). -/
def isDigitChar (c : Char) : Bool := '0' ≤ c && c ≤ '9'

/-- Numeric value of a decimal digit character. -/
def digitVal (c : Char) : Nat := c.toNat - '0'.toNat

/-- The decimal digit character for `d ∈ [0,9]` (the only values produced by
JS digit rendering; larger arguments are unreachable). -/
def digitChar : Nat → Char
  | 0 => '0'
  | 1 => '1'
  | 2 => '2'
  | 3 => '3'
  | 4 => '4'
  | 5 => '5'
  | 6 => '6'
  | 7 => '7'
  | 8 => '8'
  | 9 => '9'
  | _ => '*'

/-- JS `parseInt` applied to a single character (radix 10): a digit value, or
NaN (`none`) for any non-digit (including the empty result of an
out-of-range `charAt`). -/
def parseIntChar (c : Char) : Option Nat :=
  if isDigitChar c then some (digitVal c) else none

/-- Fuel-driven helper for `natDigits`; structural recursion on the fuel so
that concrete values reduce in the kernel.  The fuel is always at least the
argument, which makes the base case unreachable. -/
def natDigitsAux : Nat → Nat → List Char
  | 0, n => [digitChar n]
  | fuel + 1, n =>
    if n < 10 then [digitChar n]
    else natDigitsAux fuel (n / 10) ++ [digitChar (n % 10)]

/-- Decimal digits of `n`, most significant first — JS `Number.prototype.toString`
for a non-negative integer (`natDigits 0 = "0"`). -/
def natDigits (n : Nat) : List Char := natDigitsAux n n

/-- Fuel-driven helper for `natToBin`, as for `natDigitsAux`. -/
def natToBinAux : Nat → Nat → List Char
  | 0, n => [digitChar n]
  | fuel + 1, n =>
    if n < 2 then [digitChar n]
    else natToBinAux fuel (n / 2) ++ [digitChar (n % 2)]

/-- Binary digits of `n`, most significant first — JS `toString(2)` for a
non-negative integer. -/
def natToBin (n : Nat) : List Char := natToBinAux n n

/-- JS `Number.prototype.toString` for an integer (sign + digits). -/
def intToString (n : Int) : List Char :=
  if n < 0 then '-' :: natDigits n.natAbs else natDigits n.toNat

/-- JS `Number.prototype.toString(2)` for an integer. -/
def intToString2 (n : Int) : List Char :=
  if n < 0 then '-' :: natToBin n.natAbs else natToBin n.toNat

/-- JS `String.prototype.padStart(len, c)`: left-pad; no-op when already long
enough (`Nat` subtraction gives `0` then). -/
def padStartList (len : Nat) (c : Char) (l : List Char) : List Char :=
  List.replicate (len - l.length) c ++ l

/-- The whitespace characters stripped by JS `trim` / skipped by `parseInt`
(the common ASCII ones; the codec's inputs contain no exotic Unicode space). -/
def isJsSpace (c : Char) : Bool :=
  c = ' ' || c = '\t' || c = '\n' || c = '\r' || c = '\x0b' || c = '\x0c'

/-- JS `String.prototype.trim`. -/
def jsTrim (s : List Char) : List Char :=
  ((s.dropWhile isJsSpace).reverse.dropWhile isJsSpace).reverse

/-- Value of a list of decimal digits, most significant first. -/
def decVal (ds : List Char) : Nat := ds.foldl (fun a c => 10 * a + digitVal c) 0

/-- Value of a list of binary digits, most significant first. -/
def binVal (ds : List Char) : Nat := ds.foldl (fun a c => 2 * a + digitVal c) 0

/-- Hexadecimal digit test. -/
def isHexDigit (c : Char) : Bool :=
  isDigitChar c || ('a' ≤ c && c ≤ 'f') || ('A' ≤ c && c ≤ 'F')

/-- Value of a hexadecimal digit character. -/
def hexVal (c : Char) : Nat :=
  if isDigitChar c then digitVal c
  else if 'a' ≤ c && c ≤ 'f' then c.toNat - 'a'.toNat + 10
  else c.toNat - 'A'.toNat + 10

/-- Digit-run part of JS `parseInt` with no radix argument: an optional
`0x`/`0X` prefix switches to hexadecimal, otherwise the longest leading run
of decimal digits is taken; no digits means NaN (`none`). -/
def jsParseIntDigits (l : List Char) : Option Nat :=
  if l.take 2 = ['0', 'x'] ∨ l.take 2 = ['0', 'X'] then
    let ds := (l.drop 2).takeWhile isHexDigit
    if ds = [] then none else some (ds.foldl (fun a c => 16 * a + hexVal c) 0)
  else
    let ds := l.takeWhile isDigitChar
    if ds = [] then none else some (decVal ds)

/-- JS `parseInt(s)`: skip leading whitespace, optional sign, then the
digit run; NaN is `none`. -/
def jsParseInt (s : List Char) : Option Int :=
  let s1 := s.dropWhile isJsSpace
  if s1.take 1 = ['-'] then (jsParseIntDigits (s1.drop 1)).map (fun n => -(n : Int))
  else if s1.take 1 = ['+'] then (jsParseIntDigits (s1.drop 1)).map (fun n => (n : Int))
  else (jsParseIntDigits s1).map (fun n => (n : Int))

/-- JS `parseInt(s, 2)`: skip leading whitespace, optional sign, then the
longest run of binary digits; NaN is `none`. -/
def jsParseInt2 (s : List Char) : Option Int :=
  let core (l : List Char) : Option Nat :=
    let ds := l.takeWhile (fun c => c = '0' || c = '1')
    if ds = [] then none else some (binVal ds)
  let s1 := s.dropWhile isJsSpace
  if s1.take 1 = ['-'] then (core (s1.drop 1)).map (fun n => -(n : Int))
  else if s1.take 1 = ['+'] then (core (s1.drop 1)).map (fun n => (n : Int))
  else (core s1).map (fun n => (n : Int))

/-! ## The KCG symbol alphabet (source lines 19-45) -/

/-- `KCG_CHAR_MATRIX` (source lines 19-28): the 8×8 symbol matrix. -/
def KCG_CHAR_MATRIX : List (List Char) :=
  [ ['A', 'I', 'Q', 'Y', 'g', 'o', 'w', '5'],
    ['B', 'J', 'R', 'Z', 'h', 'p', 'x', '6'],
    ['C', 'K', 'S', 'a', 'i', 'q', 'y', '7'],
    ['D', 'L', 'T', 'b', 'j', 'r', 'z', '8'],
    ['E', 'M', 'U', 'c', 'k', 's', '1', '9'],
    ['F', 'N', 'V', 'd', 'l', 't', '2', '!'],
    ['G', 'O', 'W', 'e', 'm', 'u', '3', '?'],
    ['H', 'P', 'X', 'f', 'n', 'v', '4', '/'] ]

/-- `KCG_CHAR_MAP` (source lines 30-32): the rows joined into one flat string. -/
def KCG_CHAR_MAP : List Char := KCG_CHAR_MATRIX.flatten

/-- `KCG_CHAR_INDEX.get c` (source lines 38-40).  The source Map keeps the
last insertion for a duplicated key; `KCG_CHAR_MAP` is duplicate-free
(proved below), so the first index is the same. -/
def kcgCharIndex (c : Char) : Option Nat :=
  KCG_CHAR_MAP.findIdx? (fun x => x = c)

/-- `KCG_CHAR_SET.has c` (source line 41). -/
def kcgCharSetHas (c : Char) : Bool := KCG_CHAR_MAP.contains c

/-- `KCG_CHAR_INDEX.size` (source line 42): the number of distinct characters
(a JS Map built from key/value pairs holds one entry per distinct key). -/
def kcgCharIndexSize : Nat := KCG_CHAR_MAP.eraseDups.length

/-- `MAP1_EXPANSION` (source line 34). -/
def MAP1_EXPANSION : List Char := "eABCDEFGHI".toList

/-- `MAP2_EXPANSION` (source line 35). -/
def MAP2_EXPANSION : List Char := "pJKLMNOPQR".toList

/-! ## decodeKcgDeckCode (source lines 100-310) -/

/-- Step 2 (source lines 127-141): number of characters to strip from the end
of the binary payload, computed from the header symbol.  The source's
`(… ?? -1) + 1` makes the unreachable missing-header case contribute `0`. -/
def charsToRemoveFromPayloadEnd (headChar : Char) : Nat :=
  let headIndex1Based :=
    match kcgCharIndex headChar with
    | some i => i + 1
    | none => 0
  let quotient := headIndex1Based / 8
  let remainderFifthChar := headIndex1Based % 8
  if remainderFifthChar = 0 then 0
  else 8 - (quotient + 1)

/-- Step 3 (source lines 143-150): each payload character to its 6-bit
zero-padded binary rendering, concatenated.  Characters have been checked
against the alphabet, so the source's `!`-asserted lookup is total; the
fallback value `0` is unreachable. -/
def initialBinaryPayload (payload : List Char) : List Char :=
  payload.flatMap (fun c => padStartList 6 '0' (natToBin ((kcgCharIndex c).getD 0)))

/-- Step 4 (source lines 152-164): remove `k` characters from the end, or
everything when fewer than `k` remain. -/
def removePaddingBits (k : Nat) (bits : List Char) : List Char :=
  if 0 < k ∧ k ≤ bits.length then bits.take (bits.length - k)
  else if 0 < k then []
  else bits

/-- Step 5 chunking (source line 168, `for i += 10` while `i + 10 ≤ length`):
consecutive full 10-character chunks; a trailing fragment shorter than 10
is ignored. -/
def chunks10 : List Char → List (List Char)
  | c0 :: c1 :: c2 :: c3 :: c4 :: c5 :: c6 :: c7 :: c8 :: c9 :: rest =>
    [c0, c1, c2, c3, c4, c5, c6, c7, c8, c9] :: chunks10 rest
  | _ => []

/-- Step 5 rendering (source lines 181-189): `nVal` printed with `X`
placeholders restoring 3-digit alignment. -/
def formatNVal (nVal : Int) : List Char :=
  if 0 ≤ nVal ∧ nVal < 10 then 'X' :: 'X' :: intToString nVal
  else if 10 ≤ nVal ∧ nVal < 100 then 'X' :: intToString nVal
  else intToString nVal

/-- Step 5 per-chunk decode (source lines 170-189): signed 10-bit read,
`nVal = 500 - signed`.  The chunk is always a pure binary string here, so
the NaN branch of `parseInt` is unreachable; it would render as `"NaN"`. -/
def decodeTenBitChunk (chunk : List Char) : List Char :=
  match jsParseInt2 chunk with
  | none => ['N', 'a', 'N']
  | some unsignedVal =>
    let signedDecimalVal :=
      if chunk.headD ' ' = '1' then unsignedVal - 1024 else unsignedVal
    formatNVal (500 - signedDecimalVal)

/-- Step 6 scan (source lines 200-209): walk from the end of the string,
deleting `X` characters until `k` of them have been removed or the start is
reached.  Returns the remaining characters and the unused budget. -/
def removeXFromEnd : List Char → Nat → List Char × Nat
  | [], k => ([], k)
  | c :: rest, k =>
    let (rest', k') := removeXFromEnd rest k
    if c = 'X' ∧ 0 < k' then (rest', k' - 1) else (c :: rest', k')

/-- Step 6 (source lines 192-219): bring the length to a multiple of 5 by
removing `length % 5` characters — `X`s found scanning from the end first,
then real characters from the end. -/
def adjustedString (intermediate : List Char) : List Char :=
  let remainderForFive := intermediate.length % 5
  if remainderForFive = 0 then intermediate
  else
    let (afterX, remaining) := removeXFromEnd intermediate remainderForFive
    afterX.take (afterX.length - remaining)

/-- Step 7 chunking (source line 233, `for i += 5` over `substring(i, i+5)`):
consecutive 5-character windows; a final window shorter than 5 is kept as
is (the guard before this step excludes it anyway). -/
def chunks5 : List Char → List (List Char)
  | [] => []
  | c0 :: c1 :: c2 :: c3 :: c4 :: rest => [c0, c1, c2, c3, c4] :: chunks5 rest
  | l => [l]

/-- Step 7 per-tuple decode (source lines 233-290).  Digit reads are JS
`parseInt(charAt i)`: a digit value or NaN (`none`).  NaN propagates exactly
as in JS: it fails every `c5` range test, it passes the `c1 >=
expansionMap.length` test (`charAt(NaN)` then reads index 0), it falls to
the `default` of the `c2` switch, and it passes the `c3c4` range test,
rendering the number part as `"NaN"`.  Returns the reconstructed identifier
together with the original `c5` value, or `none` when the tuple is
silently skipped. -/
def processTuple (chunk : List Char) : Option (List Char × Nat) :=
  let c1 := parseIntChar (chunk.getD 0 ' ')
  let c2 := parseIntChar (chunk.getD 1 ' ')
  let c3 := parseIntChar (chunk.getD 2 ' ')
  let c4 := parseIntChar (chunk.getD 3 ' ')
  let c5 := parseIntChar (chunk.getD 4 ' ')
  let tableChoice : Option (List Char) :=
    match c5 with
    | some v =>
      if 1 ≤ v ∧ v ≤ 4 then some MAP1_EXPANSION
      else if 6 ≤ v ∧ v ≤ 9 then some MAP2_EXPANSION
      else none
    | none => none
  match tableChoice with
  | none => none
  | some expansionMap =>
    let c1Index : Option Nat :=
      match c1 with
      | some v => if expansionMap.length ≤ v then none else some v
      | none => some 0
    match c1Index with
    | none => none
    | some idx =>
      let selectedCharFromMap := expansionMap.getD idx ' '
      let expansion : List Char :=
        if selectedCharFromMap = 'e' then ['e', 'x']
        else if selectedCharFromMap = 'p' then ['p', 'r', 'm']
        else [selectedCharFromMap]
      let ty : Option Char :=
        match c2 with
        | some 1 => some 'A'
        | some 2 => some 'S'
        | some 3 => some 'M'
        | some 4 => some 'D'
        | _ => none
      match ty with
      | none => none
      | some t =>
        let numberPartInt : Option Nat :=
          match c3, c4 with
          | some a, some b => some (a * 10 + b)
          | _, _ => none
        if (match numberPartInt with
            | some n => decide (n < 1 ∨ 50 < n)
            | none => false) then none
        else
          let numberChars : List Char :=
            match numberPartInt with
            | some n => natDigits n
            | none => ['N', 'a', 'N']
          some (expansion ++ t :: '-' :: numberChars, c5.getD 0)

/-- Step 8 (source lines 292-299): each surviving tuple contributes
`c5 % 5` copies of its identifier, in tuple order. -/
def expandEntries (entries : List (List Char × Nat)) : List (List Char) :=
  entries.flatMap (fun e => List.replicate (e.2 % 5) e.1)

/-- Steps 2-6 combined: the final numeric string produced from the validated
payload (header character still included in `raw`). -/
def kcgFinalNumericString (raw : List Char) : List Char :=
  let headChar := raw.headD ' '
  let k := charsToRemoveFromPayloadEnd headChar
  let payload := raw.drop 1
  let processed := removePaddingBits k (initialBinaryPayload payload)
  let intermediate := (chunks10 processed).flatMap decodeTenBitChunk
  (adjustedString intermediate).map (fun c => if c = 'X' then '0' else c)

/-- `decodeKcgDeckCode` (source lines 100-310).  The surrounding
`try`/`catch` only rethrows `DeckCodeError`s; the pure model raises no other
exception, so the catch-all `decode`-tagged branch is not represented. -/
def decodeKcgDeckCode (deckCode : List Char) :
    Except DeckCodeError (List (List Char)) :=
  if deckCode.take 4 ≠ "KCG-".toList then
    .error ⟨.validation, "デッキコードは'KCG-'で始まる必要があります".toList⟩
  else
    let rawPayloadWithVersion := deckCode.drop 4
    if rawPayloadWithVersion = [] then
      .error ⟨.validation, "デッキコードのペイロードが空です".toList⟩
    else
      match rawPayloadWithVersion.find? (fun c => ¬ kcgCharSetHas c) with
      | some c =>
        .error ⟨.validation,
          "デッキコードに無効な文字が含まれています: ".toList ++ [c]⟩
      | none =>
        let finalNumericString := kcgFinalNumericString rawPayloadWithVersion
        if finalNumericString.length % 5 ≠ 0 then
          .error ⟨.validation, "最終的な数値文字列の長さが5の倍数ではありません".toList⟩
        else
          let decodedEntries := (chunks5 finalNumericString).filterMap processTuple
          .ok (expandEntries decodedEntries)

/-! ## encodeKcgDeckCode (source lines 317-469) -/

/-- One step of the aggregation `cardCounts[id] = (cardCounts[id] || 0) + 1`
(source lines 319-322) on the plain object `cardCounts`.  `Object.entries`
iterates string keys in insertion order; keys that would be reordered
(canonical array indices) contain no `-` and always fail the encode loop,
so insertion order is faithful for every entry the loop can accept.  The
key `__proto__` is special: the bracket assignment invokes the inherited
setter, which ignores a non-object value, so no own property is ever
created and the identifier is dropped.  The other `Object.prototype` names
are shadowed by an ordinary own property; the value stored for them is a
garbage string (`inherited function + 1`), but such keys contain no `-`,
so the encode loop throws on the key before ever reading its count, and
the count is modelled as the occurrence number. -/
def bumpCount (acc : List (List Char × Nat)) (cid : List Char) :
    List (List Char × Nat) :=
  if cid = ("__proto__").toList then acc
  else if acc.any (fun e => e.1 = cid) then
    acc.map (fun e => if e.1 = cid then (e.1, e.2 + 1) else e)
  else acc ++ [(cid, 1)]

/-- The aggregation of a flat identifier list into insertion-ordered counts. -/
def aggregateCounts (cardIds : List (List Char)) : List (List Char × Nat) :=
  cardIds.foldl bumpCount []

/-- The expansion-code table `O` (source lines 325-346): values are digit
strings, parsed back with `parseInt` in the loop. -/
def O_TABLE : List (List Char × List Char) :=
  [ ("ex".toList, "0".toList), ("A".toList, "1".toList), ("B".toList, "2".toList),
    ("C".toList, "3".toList), ("D".toList, "4".toList), ("E".toList, "5".toList),
    ("F".toList, "6".toList), ("G".toList, "7".toList), ("H".toList, "8".toList),
    ("I".toList, "9".toList), ("prm".toList, "10".toList), ("J".toList, "11".toList),
    ("K".toList, "12".toList), ("L".toList, "13".toList), ("M".toList, "14".toList),
    ("N".toList, "15".toList), ("O".toList, "16".toList), ("P".toList, "17".toList),
    ("Q".toList, "18".toList), ("R".toList, "19".toList) ]

/-- The type-code table `D` (source line 347). -/
def D_TABLE : List (List Char × List Char) :=
  [ ("A".toList, "1".toList), ("S".toList, "2".toList),
    ("M".toList, "3".toList), ("D".toList, "4".toList) ]

/-- The zero-padding table `F` (source lines 348-349): `"1" ↦ "01"`, …,
`"9" ↦ "09"`. -/
def F_TABLE : List (List Char × List Char) :=
  (List.range 9).map (fun r => (natDigits (r + 1), '0' :: natDigits (r + 1)))

/-- The properties every plain object literal inherits from
`Object.prototype`, each with the string its value coerces to (the same
`ToString` serves `parseInt`'s argument coercion and the later `+`
concatenation; `__proto__`'s getter yields `Object.prototype` itself, the
others are built-in functions).  `O`, `D` and `F` are object literals, so a
bracket lookup with one of these keys finds the inherited value instead of
`undefined`. -/
def OBJECT_PROTOTYPE : List (List Char × List Char) :=
  [ ("constructor".toList, "function Object() { [native code] }".toList),
    ("hasOwnProperty".toList, "function hasOwnProperty() { [native code] }".toList),
    ("isPrototypeOf".toList, "function isPrototypeOf() { [native code] }".toList),
    ("propertyIsEnumerable".toList,
      "function propertyIsEnumerable() { [native code] }".toList),
    ("toLocaleString".toList, "function toLocaleString() { [native code] }".toList),
    ("toString".toList, "function toString() { [native code] }".toList),
    ("valueOf".toList, "function valueOf() { [native code] }".toList),
    ("__proto__".toList, "[object Object]".toList),
    ("__defineGetter__".toList, "function __defineGetter__() { [native code] }".toList),
    ("__defineSetter__".toList, "function __defineSetter__() { [native code] }".toList),
    ("__lookupGetter__".toList, "function __lookupGetter__() { [native code] }".toList),
    ("__lookupSetter__".toList, "function __lookupSetter__() { [native code] }".toList) ]

/-- `O[expansion]` (source line 367): the own key's value, else the value
inherited from `Object.prototype` (as its string coercion), else
`undefined` (`none`).  Only `none` reaches the unknown-expansion throw. -/
def oLookup (expansion : List Char) : Option (List Char) :=
  match O_TABLE.find? (fun e => e.1 = expansion) with
  | some oEntry => some oEntry.2
  | none => (OBJECT_PROTOTYPE.find? (fun e => e.1 = expansion)).map (fun e => e.2)

/-- `F[numberPart] || numberPart` (source line 392): the own key's value,
else an inherited `Object.prototype` value (truthy, so it wins the `||`),
else the number part itself. -/
def fLookup (numberPart : List Char) : List Char :=
  match F_TABLE.find? (fun e => e.1 = numberPart) with
  | some fEntry => fEntry.2
  | none =>
    match OBJECT_PROTOTYPE.find? (fun e => e.1 = numberPart) with
    | some pEntry => pEntry.2
    | none => numberPart

/-- One iteration of the encode loop (source lines 351-403): the tuple
contributed by `(cid, count)`, or the thrown error.  `prefix` is a
reserved word in Lean, so the source's `prefix` local is named `pfx`.
An inherited `O[expansion]` hit (e.g. expansion `constructor`) does not
throw: `parseInt` of the coerced value is NaN, `NaN >= 10` is false, and
the raw coerced string becomes `c1`, exactly as in the source. -/
def encodeEntry (cid : List Char) (count : Nat) :
    Except DeckCodeError (List Char) :=
  match cid.findIdx? (fun c => c = '-') with
  | none => .error ⟨.generation, "不正なカードID形式です: ".toList ++ cid⟩
  | some splitIdx =>
    let pfx := cid.take splitIdx
    let numberPart := cid.drop (splitIdx + 1)
    let expansion := pfx.dropLast
    let ty := pfx.drop (pfx.length - 1)
    match oLookup expansion with
    | none => .error ⟨.generation, "未知のエキスパンションです: ".toList ++ expansion⟩
    | some oVal =>
      let parsedVal : Int := (jsParseInt oVal).getD 0
      let isExpansionOver9 := decide (10 ≤ parsedVal)
      let c1 := if 10 ≤ parsedVal then intToString (parsedVal - 10) else oVal
      match D_TABLE.find? (fun e => e.1 = ty) with
      | none => .error ⟨.generation, "未知のタイプです: ".toList ++ ty⟩
      | some dEntry =>
        let c2 := dEntry.2
        let c3c4 := fLookup numberPart
        if count < 1 ∨ 4 < count then
          .error ⟨.generation,
            "枚数が範囲外です (1..4): ".toList ++ natDigits count ++
              " (".toList ++ cid ++ ")".toList⟩
        else
          let c5 := if isExpansionOver9 then count + 5 else count
          .ok (c1 ++ c2 ++ c3c4 ++ natDigits c5)

/-- The whole encode loop (source lines 351-403): tuples appended in entry
order into `numericString`; the first failing entry aborts. -/
def encodeNumericString : List (List Char × Nat) → Except DeckCodeError (List Char)
  | [] => .ok []
  | (cid, count) :: rest =>
    match encodeEntry cid count with
    | .error e => .error e
    | .ok t =>
      match encodeNumericString rest with
      | .error e => .error e
      | .ok r => .ok (t ++ r)

/-- 3-character chunking (source lines 405-408, `for d += 3` over
`substring(d, d+3)`): consecutive runs of up to 3 characters. -/
def chunksOf3 : List Char → List (List Char)
  | [] => []
  | a :: b :: c :: rest => [a, b, c] :: chunksOf3 rest
  | l => [l]

/-- `r` (source lines 405-409): chunk values through `parseInt`, then
`e ↦ 500 - e`; NaN (`none`) propagates. -/
def encodeRValues (numericString : List Char) : List (Option Int) :=
  (chunksOf3 numericString).map (fun chunk => (jsParseInt chunk).map (fun e => 500 - e))

/-- `(e < 0 ? 1024 + e : e).toString(2).padStart(10, "0")` (source lines
411-413); `NaN.toString(2)` is the string `"NaN"`. -/
def rToBinary (x : Option Int) : List Char :=
  match x with
  | none => padStartList 10 '0' "NaN".toList
  | some e => padStartList 10 '0' (intToString2 (if e < 0 then 1024 + e else e))

/-- The `while (length % 6 !== 0)` padding loop (source lines 415-419) in
closed form: number of `'0'`s appended. -/
def paddingZerosCount (len : Nat) : Nat := (6 - len % 6) % 6

/-- `binaryString.match(/.{1,3}/g)` (source line 421): `null` on the empty
string, otherwise the successive runs of up to 3 characters (the binary
string contains no newline, so `.` matches every character). -/
def regexChunks3 (l : List Char) : Option (List (List Char)) :=
  if l = [] then none else some (chunksOf3 l)

/-- The pairs `(i[d], i[d+1])` for `d += 2` while `d + 1 < i.length`
(source line 432): an unpaired trailing element is ignored. -/
def pairUp : List (Option Int) → List (Option Int × Option Int)
  | a :: b :: rest => (a, b) :: pairUp rest
  | _ => []

/-- The body-character loop (source lines 430-441): each pair of 3-bit group
values indexes the matrix; a NaN or out-of-range row or column emits
nothing. -/
def bodyChars (o : List (List Char)) : List Char :=
  (pairUp (o.map jsParseInt2)).filterMap (fun p =>
    match p with
    | (some row, some col) =>
      if 0 ≤ row ∧ row < 8 ∧ 0 ≤ col ∧ col < 8 then
        some ((KCG_CHAR_MATRIX.getD row.toNat []).getD col.toNat ' ')
      else none
    | _ => none)

/-- Count of `"000"` groups (source line 444). -/
def zeroGroupCount (o : List (List Char)) : Nat :=
  (o.filter (fun e => e = "000".toList)).length

/-- `encodeKcgDeckCode` (source lines 317-469).  As in the decoder, the
catch-all wrapper adds nothing in the pure model. -/
def encodeKcgDeckCode (cardIds : List (List Char)) :
    Except DeckCodeError (List Char) :=
  match encodeNumericString (aggregateCounts cardIds) with
  | .error e => .error e
  | .ok numericString =>
    let binaryString := (encodeRValues numericString).flatMap rToBinary
    let paddingZeros := paddingZerosCount binaryString.length
    let padded := binaryString ++ List.replicate paddingZeros '0'
    match regexChunks3 padded with
    | none => .error ⟨.generation, "バイナリ文字列の分割に失敗しました".toList⟩
    | some o =>
      let u := bodyChars o
      let s : Int := 7 - (paddingZeros : Int)
      let c : Int := 7 - ((zeroGroupCount o : Int) % 8)
      if s < 0 ∨ 8 ≤ s then .error ⟨.generation, "不正なs値です".toList⟩
      else
        match KCG_CHAR_MATRIX.get? s.toNat with
        | none => .error ⟨.generation, "不正な行参照です".toList⟩
        | some rowArr =>
          if c < 0 ∨ (rowArr.length : Int) ≤ c then
            .error ⟨.generation, "不正なc値です".toList⟩
          else
            .ok ("KCG-".toList ++ rowArr.getD c.toNat ' ' :: u)

/-! ## The card-identifier grammar and the delimited-list codec
(src/domain/validation.ts, source lines 50-92) -/

/-- ASCII uppercase test (`[A-Z]`). -/
def isAsciiUpper (c : Char) : Bool := 'A' ≤ c && c ≤ 'Z'

/-- The `(A|S|M|D)-\d+$` tail of `CARD_ID_REGEX`. -/
def cardIdTail (s : List Char) : Bool :=
  match s with
  | t :: '-' :: ds =>
    (t = 'A' || t = 'S' || t = 'M' || t = 'D') && !ds.isEmpty && ds.all isDigitChar
  | _ => false

/-- `CARD_ID_REGEX.test` (src/domain/validation.ts line 25):
`^([A-Z]|ex|prm)(A|S|M|D)-\d+$`. -/
def cardIdRegexTest (s : List Char) : Bool :=
  match s with
  | 'e' :: 'x' :: rest => cardIdTail rest
  | 'p' :: 'r' :: 'm' :: rest => cardIdTail rest
  | c :: rest => isAsciiUpper c && cardIdTail rest
  | [] => false

/-- Modelled from the spec: `GAME_CONSTANTS.MAX_DECK_CODE_LENGTH` — the
configured maximum deck-code length used by `SlashDeckCodeSchema`
(src/domain/validation.ts lines 44-47).  The constants module
(`src/constants`) is not part of the provided sources; the spec says only
that the code "exceeds a configured maximum length" is rejected, so the
bound is modelled as an unspecified generous constant. -/
def MAX_DECK_CODE_LENGTH : Nat := 1000

/-- Adjacent-slash test, `s.includes("//")`. -/
def hasDoubleSlash : List Char → Bool
  | a :: b :: rest => (a = '/' && b = '/') || hasDoubleSlash (b :: rest)
  | _ => false

/-- `v.safeParse(SlashDeckCodeSchema, code)` (src/domain/validation.ts lines
40-57): the pipe's checks run in order and the first failure's message is
reported; on success the trimmed string is the output. -/
def slashDeckCodeParse (code : List Char) : Except (List Char) (List Char) :=
  let s := jsTrim code
  if s = [] then .error "デッキコードが空です".toList
  else if MAX_DECK_CODE_LENGTH < s.length then
    .error ("デッキコードが長すぎます（最大".toList ++
      natDigits MAX_DECK_CODE_LENGTH ++ "文字）".toList)
  else if s.headD ' ' = '/' ∨ s.getLast?.getD ' ' = '/' then
    .error "先頭/末尾の'/'は無効です".toList
  else if hasDoubleSlash s then .error "連続した'//'は無効です".toList
  else if ¬ (s.splitOn '/').all (fun tok => cardIdRegexTest (jsTrim tok)) then
    .error "無効なカードIDが含まれます".toList
  else .ok s

/-- `Card` (src/types/card.ts): only the `id` field is read by the codec;
the remaining catalog fields are irrelevant to every claim and omitted. -/
structure Card where
  id : List Char
deriving DecidableEq, Repr

/-- `DeckCard` (src/types/deck.ts lines 12-15). -/
structure DeckCard where
  card : Card
  count : Nat
deriving DecidableEq, Repr

/-- `availableCardsMap.get` (source lines 66-68): a JS Map built from
`(c.id, c)` pairs keeps the last card inserted under a duplicated id. -/
def availableCardsMapGet (availableCards : List Card) (cid : List Char) :
    Option Card :=
  availableCards.reverse.find? (fun c => c.id = cid)

/-- `decodeDeckCode` (source lines 50-92).  The result pairs `deckCards`
with `missingCardIds`; the source fills both in one pass over `cardCounts`
in insertion order, which equals the two order-preserving passes here. -/
def decodeDeckCode (code : List Char) (availableCards : List Card) :
    Except DeckCodeError (List DeckCard × List (List Char)) :=
  match slashDeckCodeParse code with
  | .error msg => .error ⟨.validation, msg⟩
  | .ok out =>
    let cardIds := (out.splitOn '/').filter (fun i => jsTrim i ≠ [])
    -- the loop over `cardIds` (source lines 72-77): `CardIdSchema` trims,
    -- rejects empty and applies the grammar; failures are skipped
    let cardCounts := cardIds.foldl (fun acc i =>
      let t := jsTrim i
      if t ≠ [] ∧ cardIdRegexTest t then bumpCount acc t else acc) []
    let deckCards := cardCounts.filterMap (fun e =>
      (availableCardsMapGet availableCards e.1).map (fun card => DeckCard.mk card e.2))
    let missingCardIds :=
      (cardCounts.filter (fun e => availableCardsMapGet availableCards e.1 = none)).map
        (fun e => e.1)
    .ok (deckCards, missingCardIds)

/-! ## Basic facts about digit characters and numeral rendering -/

theorem digitVal_digitChar {d : Nat} (hd : d < 10) : digitVal (digitChar d) = d := by
  interval_cases d <;> decide

theorem isDigitChar_digitChar {d : Nat} (hd : d < 10) :
    isDigitChar (digitChar d) = true := by
  interval_cases d <;> decide

theorem parseIntChar_digitChar {d : Nat} (hd : d < 10) :
    parseIntChar (digitChar d) = some d := by
  interval_cases d <;> decide

theorem isDigitChar_toNat {c : Char} (hc : isDigitChar c = true) :
    48 ≤ c.toNat ∧ c.toNat ≤ 57 := by
  simp only [isDigitChar, Bool.and_eq_true, decide_eq_true_eq] at hc
  exact ⟨hc.1, hc.2⟩

theorem digitChar_digitVal {c : Char} (hc : isDigitChar c = true) :
    digitChar (digitVal c) = c := by
  obtain ⟨h0, h9⟩ := isDigitChar_toNat hc
  have hv : Char.ofNat c.toNat = c := Char.ofNat_toNat c
  have hdv : digitVal c = c.toNat - 48 := rfl
  rw [hdv, ← hv]
  set n := c.toNat with hn
  interval_cases n <;> rfl

theorem digitVal_lt_of_isDigitChar {c : Char} (hc : isDigitChar c = true) :
    digitVal c < 10 := by
  obtain ⟨h0, h9⟩ := isDigitChar_toNat hc
  have hdv : digitVal c = c.toNat - 48 := rfl
  omega

theorem natDigitsAux_congr :
    ∀ f1 : Nat, ∀ f2 n : Nat, n ≤ f1 → n ≤ f2 → natDigitsAux f1 n = natDigitsAux f2 n := by
  intro f1
  induction f1 with
  | zero =>
    intro f2 n h1 h2
    have : n = 0 := by omega
    subst this
    cases f2 with
    | zero => rfl
    | succ k => simp [natDigitsAux]
  | succ f ih =>
    intro f2 n h1 h2
    cases f2 with
    | zero =>
      have : n = 0 := by omega
      subst this
      simp [natDigitsAux]
    | succ k =>
      simp only [natDigitsAux]
      by_cases hn : n < 10
      · simp [hn]
      · simp only [hn, if_false]
        rw [ih k (n / 10) (by omega) (by omega)]

theorem natToBinAux_congr :
    ∀ f1 : Nat, ∀ f2 n : Nat, n ≤ f1 → n ≤ f2 → natToBinAux f1 n = natToBinAux f2 n := by
  intro f1
  induction f1 with
  | zero =>
    intro f2 n h1 h2
    have : n = 0 := by omega
    subst this
    cases f2 with
    | zero => rfl
    | succ k => simp [natToBinAux]
  | succ f ih =>
    intro f2 n h1 h2
    cases f2 with
    | zero =>
      have : n = 0 := by omega
      subst this
      simp [natToBinAux]
    | succ k =>
      simp only [natToBinAux]
      by_cases hn : n < 2
      · simp [hn]
      · simp only [hn, if_false]
        rw [ih k (n / 2) (by omega) (by omega)]

theorem natDigits_small {n : Nat} (h : n < 10) : natDigits n = [digitChar n] := by
  cases n with
  | zero => rfl
  | succ m => simp [natDigits, natDigitsAux, h]

theorem natDigits_large {n : Nat} (h : ¬ n < 10) :
    natDigits n = natDigits (n / 10) ++ [digitChar (n % 10)] := by
  cases n with
  | zero => omega
  | succ m =>
    show natDigitsAux (m + 1) (m + 1) = _
    simp only [natDigitsAux, h, if_false]
    rw [natDigitsAux_congr m ((m + 1) / 10) ((m + 1) / 10) (by omega) (by omega)]
    rfl

theorem natToBin_small {n : Nat} (h : n < 2) : natToBin n = [digitChar n] := by
  cases n with
  | zero => rfl
  | succ m => simp [natToBin, natToBinAux, h]

theorem natToBin_large {n : Nat} (h : ¬ n < 2) :
    natToBin n = natToBin (n / 2) ++ [digitChar (n % 2)] := by
  cases n with
  | zero => omega
  | succ m =>
    show natToBinAux (m + 1) (m + 1) = _
    simp only [natToBinAux, h, if_false]
    rw [natToBinAux_congr m ((m + 1) / 2) ((m + 1) / 2) (by omega) (by omega)]
    rfl

/-- `foldl`-with-accumulator closed form shared by `decVal` and `binVal`. -/
theorem baseValAux (b : Nat) (l : List Char) :
    ∀ a : Nat, l.foldl (fun x c => b * x + digitVal c) a =
      a * b ^ l.length + l.foldl (fun x c => b * x + digitVal c) 0 := by
  induction l with
  | nil => intro a; simp
  | cons c t ih =>
    intro a
    simp only [List.foldl_cons, List.length_cons]
    rw [ih (b * a + digitVal c), ih (b * 0 + digitVal c)]
    ring

theorem binVal_cons (c : Char) (t : List Char) :
    binVal (c :: t) = digitVal c * 2 ^ t.length + binVal t := by
  have := baseValAux 2 t (2 * 0 + digitVal c)
  simp only [binVal, List.foldl_cons]
  simpa using this

theorem decVal_cons (c : Char) (t : List Char) :
    decVal (c :: t) = digitVal c * 10 ^ t.length + decVal t := by
  have := baseValAux 10 t (10 * 0 + digitVal c)
  simp only [decVal, List.foldl_cons]
  simpa using this

theorem binVal_append (l r : List Char) :
    binVal (l ++ r) = binVal l * 2 ^ r.length + binVal r := by
  simp only [binVal, List.foldl_append]
  exact baseValAux 2 r (List.foldl (fun x c => 2 * x + digitVal c) 0 l)

theorem decVal_append (l r : List Char) :
    decVal (l ++ r) = decVal l * 10 ^ r.length + decVal r := by
  simp only [decVal, List.foldl_append]
  exact baseValAux 10 r (List.foldl (fun x c => 10 * x + digitVal c) 0 l)

theorem binVal_singleton (c : Char) : binVal [c] = digitVal c := by
  simp [binVal_cons, binVal]

theorem decVal_singleton (c : Char) : decVal [c] = digitVal c := by
  simp [decVal_cons, decVal]

/-- A binary character test used throughout. -/
def isBinChar (c : Char) : Prop := c = '0' ∨ c = '1'

theorem digitVal_le_one_of_bin {c : Char} (h : isBinChar c) : digitVal c ≤ 1 := by
  rcases h with h | h <;> subst h <;> decide

theorem binVal_lt {l : List Char} (h : ∀ c ∈ l, isBinChar c) :
    binVal l < 2 ^ l.length := by
  induction l with
  | nil => simp [binVal]
  | cons c t ih =>
    rw [binVal_cons]
    have hc : digitVal c ≤ 1 := digitVal_le_one_of_bin (h c (by simp))
    have ht : binVal t < 2 ^ t.length := ih (fun x hx => h x (by simp [hx]))
    have : 2 ^ (c :: t).length = 2 * 2 ^ t.length := by
      simp [List.length_cons, pow_succ]; ring
    rw [this]
    nlinarith

theorem decVal_lt {l : List Char} (h : ∀ c ∈ l, isDigitChar c = true) :
    decVal l < 10 ^ l.length := by
  induction l with
  | nil => simp [decVal]
  | cons c t ih =>
    rw [decVal_cons]
    have hc : digitVal c < 10 := digitVal_lt_of_isDigitChar (h c (by simp))
    have ht : decVal t < 10 ^ t.length := ih (fun x hx => h x (by simp [hx]))
    have : 10 ^ (c :: t).length = 10 * 10 ^ t.length := by
      simp [List.length_cons, pow_succ]; ring
    rw [this]
    nlinarith

theorem natToBin_ne_nil (n : Nat) : natToBin n ≠ [] := by
  by_cases h : n < 2
  · simp [natToBin_small h]
  · simp [natToBin_large h]

theorem natDigits_ne_nil (n : Nat) : natDigits n ≠ [] := by
  by_cases h : n < 10
  · simp [natDigits_small h]
  · simp [natDigits_large h]

theorem binVal_natToBin (n : Nat) : binVal (natToBin n) = n := by
  induction n using Nat.strong_induction_on with
  | _ n ih =>
    by_cases h : n < 2
    · rw [natToBin_small h, binVal_singleton, digitVal_digitChar (by omega)]
    · rw [natToBin_large h, binVal_append, binVal_singleton,
        digitVal_digitChar (by omega), ih (n / 2) (Nat.div_lt_self (by omega) (by omega))]
      simp only [List.length_singleton, pow_one]
      omega

theorem decVal_natDigits (n : Nat) : decVal (natDigits n) = n := by
  induction n using Nat.strong_induction_on with
  | _ n ih =>
    by_cases h : n < 10
    · rw [natDigits_small h, decVal_singleton, digitVal_digitChar (by omega)]
    · rw [natDigits_large h, decVal_append, decVal_singleton,
        digitVal_digitChar (by omega), ih (n / 10) (Nat.div_lt_self (by omega) (by omega))]
      simp only [List.length_singleton, pow_one]
      omega

theorem natToBin_chars (n : Nat) : ∀ c ∈ natToBin n, isBinChar c := by
  induction n using Nat.strong_induction_on with
  | _ n ih =>
    by_cases h : n < 2
    · rw [natToBin_small h]
      intro c hc
      simp at hc
      subst hc
      interval_cases n
      · exact Or.inl rfl
      · exact Or.inr rfl
    · rw [natToBin_large h]
      intro c hc
      simp at hc
      rcases hc with hc | hc
      · exact ih (n / 2) (Nat.div_lt_self (by omega) (by omega)) c hc
      · subst hc
        have h2 : n % 2 = 0 ∨ n % 2 = 1 := by omega
        rcases h2 with h2 | h2 <;> rw [h2]
        · exact Or.inl rfl
        · exact Or.inr rfl

theorem natDigits_chars (n : Nat) : ∀ c ∈ natDigits n, isDigitChar c = true := by
  induction n using Nat.strong_induction_on with
  | _ n ih =>
    by_cases h : n < 10
    · rw [natDigits_small h]
      intro c hc
      simp at hc
      subst hc
      exact isDigitChar_digitChar h
    · rw [natDigits_large h]
      intro c hc
      simp at hc
      rcases hc with hc | hc
      · exact ih (n / 10) (Nat.div_lt_self (by omega) (by omega)) c hc
      · subst hc
        exact isDigitChar_digitChar (Nat.mod_lt _ (by omega))

theorem natToBin_length_le : ∀ (k : Nat), 1 ≤ k → ∀ n < 2 ^ k, (natToBin n).length ≤ k := by
  intro k
  induction k with
  | zero => omega
  | succ k ih =>
    intro _ n hn
    by_cases h : n < 2
    · rw [natToBin_small h]
      simp only [List.length_singleton]
      omega
    · rw [natToBin_large h]
      have hk : 1 ≤ k := by
        by_contra hk0
        have : k = 0 := by omega
        subst this
        simp at hn
        omega
      have hdiv : n / 2 < 2 ^ k := by
        rw [Nat.div_lt_iff_lt_mul (by omega)]
        calc n < 2 ^ (k + 1) := hn
        _ = 2 ^ k * 2 := by rw [pow_succ]
      have := ih hk (n / 2) hdiv
      simp [List.length_append]
      omega

theorem natToBin_length_ge : ∀ (k n : Nat), 2 ^ k ≤ n → k + 1 ≤ (natToBin n).length := by
  intro k
  induction k with
  | zero =>
    intro n hn
    have hne := natToBin_ne_nil n
    cases hl : natToBin n with
    | nil => exact absurd hl hne
    | cons a t => simp
  | succ k ih =>
    intro n hn
    have h2 : ¬ n < 2 := by
      have : 2 ≤ 2 ^ (k + 1) := by
        calc 2 = 2 ^ 1 := rfl
        _ ≤ 2 ^ (k + 1) := Nat.pow_le_pow_right (by omega) (by omega)
      omega
    rw [natToBin_large h2]
    have hdiv : 2 ^ k ≤ n / 2 := by
      rw [Nat.le_div_iff_mul_le (by omega)]
      calc 2 ^ k * 2 = 2 ^ (k + 1) := (pow_succ 2 k).symm
      _ ≤ n := hn
    have := ih (n / 2) hdiv
    simp [List.length_append]
    omega

theorem natToBin_head_one : ∀ n : Nat, 1 ≤ n → ∃ t, natToBin n = '1' :: t := by
  intro n
  induction n using Nat.strong_induction_on with
  | _ n ih =>
    intro hn
    by_cases h : n < 2
    · have : n = 1 := by omega
      subst this
      exact ⟨[], by rw [natToBin_small (by omega)]; rfl⟩
    · obtain ⟨t, ht⟩ := ih (n / 2) (Nat.div_lt_self (by omega) (by omega)) (by omega)
      rw [natToBin_large h, ht]
      exact ⟨t ++ [digitChar (n % 2)], rfl⟩

/-- A head-`'1'` binary string is exactly the rendering of its own value. -/
theorem natToBin_binVal_head_one :
    ∀ t : List Char, (∀ c ∈ t, isBinChar c) → natToBin (binVal ('1' :: t)) = '1' :: t := by
  intro t
  induction t using List.reverseRecOn with
  | nil => intro _; decide
  | append_singleton t' c ih =>
    intro hb
    have hb' : ∀ x ∈ t', isBinChar x := fun x hx => hb x (by simp [hx])
    have hbc : isBinChar c := hb c (by simp)
    have hx : ('1' :: (t' ++ [c])) = ('1' :: t') ++ [c] := by simp
    rw [hx, binVal_append, binVal_singleton]
    have hge : 1 ≤ binVal ('1' :: t') := by
      rw [binVal_cons]
      have h2p : (1 : Nat) ≤ 2 ^ t'.length := Nat.one_le_two_pow
      have hd1 : digitVal '1' = 1 := rfl
      rw [hd1, one_mul]
      omega
    have hc1 : digitVal c ≤ 1 := digitVal_le_one_of_bin hbc
    have hnl : ¬ binVal ('1' :: t') * 2 ^ (List.length [c]) + digitVal c < 2 := by
      simp only [List.length_singleton, pow_one]
      omega
    rw [natToBin_large hnl]
    have hdiv : (binVal ('1' :: t') * 2 ^ (List.length [c]) + digitVal c) / 2
        = binVal ('1' :: t') := by
      simp only [List.length_singleton, pow_one]
      omega
    have hmod : (binVal ('1' :: t') * 2 ^ (List.length [c]) + digitVal c) % 2
        = digitVal c := by
      simp only [List.length_singleton, pow_one]
      omega
    rw [hdiv, hmod, ih hb']
    have hch : digitChar (digitVal c) = c := by
      rcases hbc with h | h <;> subst h <;> rfl
    rw [hch]

/-- Left-zero-padding the rendering of a binary string's value recovers the
string itself. -/
theorem padStart_natToBin_binVal :
    ∀ g : List Char, 1 ≤ g.length → (∀ c ∈ g, isBinChar c) →
      padStartList g.length '0' (natToBin (binVal g)) = g := by
  intro g
  induction g with
  | nil => intro h; simp at h
  | cons c t ih =>
    intro _ hb
    have hbc : isBinChar c := hb c (by simp)
    have hb' : ∀ x ∈ t, isBinChar x := fun x hx => hb x (by simp [hx])
    rcases hbc with hc | hc
    · subst hc
      have hbv : binVal ('0' :: t) = binVal t := by
        rw [binVal_cons]
        have hd0 : digitVal '0' = 0 := rfl
        rw [hd0]
        simp
      by_cases ht : t = []
      · subst ht
        decide
      · have htlen : 1 ≤ t.length := by
          have := List.length_pos.mpr ht
          omega
        have hlen : (natToBin (binVal t)).length ≤ t.length :=
          natToBin_length_le t.length htlen (binVal t) (binVal_lt hb')
        have hih := ih htlen hb'
        rw [hbv]
        unfold padStartList at hih ⊢
        have hlc : ('0' :: t).length - (natToBin (binVal t)).length
            = (t.length - (natToBin (binVal t)).length) + 1 := by
          simp only [List.length_cons]
          omega
        rw [hlc, List.replicate_succ, List.cons_append, hih]
    · subst hc
      rw [natToBin_binVal_head_one t hb']
      unfold padStartList
      simp

theorem natDigits_two_digit {n : Nat} (h1 : 10 ≤ n) (h2 : n < 100) :
    natDigits n = [digitChar (n / 10), digitChar (n % 10)] := by
  rw [natDigits_large (by omega), natDigits_small (by omega)]
  rfl

theorem natDigits_three_digit {n : Nat} (h1 : 100 ≤ n) (h2 : n < 1000) :
    natDigits n = [digitChar (n / 100), digitChar (n / 10 % 10), digitChar (n % 10)] := by
  rw [natDigits_large (by omega), natDigits_two_digit (by omega) (by omega)]
  have : n / 10 / 10 = n / 100 := by omega
  rw [this]
  rfl

theorem natDigits_length_of_lt_10 {n : Nat} (h : n < 10) : (natDigits n).length = 1 := by
  rw [natDigits_small h]; rfl

theorem natDigits_length_two {n : Nat} (h1 : 10 ≤ n) (h2 : n < 100) :
    (natDigits n).length = 2 := by
  rw [natDigits_two_digit h1 h2]; rfl

theorem natDigits_length_three {n : Nat} (h1 : 100 ≤ n) (h2 : n < 1000) :
    (natDigits n).length = 3 := by
  rw [natDigits_three_digit h1 h2]; rfl

theorem binVal_replicate_zero (k : Nat) (l : List Char) :
    binVal (List.replicate k '0' ++ l) = binVal l := by
  induction k with
  | zero => simp
  | succ k ih =>
    rw [List.replicate_succ, List.cons_append, binVal_cons]
    have hd0 : digitVal '0' = 0 := rfl
    rw [hd0, ih]
    simp

theorem decVal_replicate_zero (k : Nat) (l : List Char) :
    decVal (List.replicate k '0' ++ l) = decVal l := by
  induction k with
  | zero => simp
  | succ k ih =>
    rw [List.replicate_succ, List.cons_append, decVal_cons]
    have hd0 : digitVal '0' = 0 := rfl
    rw [hd0, ih]
    simp

theorem digitVal_pos_of_ne_zero {c : Char} (hc : isDigitChar c = true) (h0 : c ≠ '0') :
    1 ≤ digitVal c := by
  obtain ⟨hl, hr⟩ := isDigitChar_toNat hc
  have hdv : digitVal c = c.toNat - 48 := rfl
  have : c.toNat ≠ 48 := by
    intro h
    apply h0
    have := Char.ofNat_toNat c
    rw [h] at this
    rw [← this]
  omega

/-- A digit string with a non-`'0'` head is exactly the rendering of its own
value (decimal analogue of `natToBin_binVal_head_one`). -/
theorem natDigits_decVal_head_ne_zero :
    ∀ t : List Char, (∀ c ∈ t, isDigitChar c = true) →
      ∀ h : Char, isDigitChar h = true → h ≠ '0' →
      natDigits (decVal (h :: t)) = h :: t := by
  intro t
  induction t using List.reverseRecOn with
  | nil =>
    intro _ h hd h0
    rw [decVal_singleton,
      natDigits_small (by have := digitVal_lt_of_isDigitChar hd; omega),
      digitChar_digitVal hd]
  | append_singleton t' c ih =>
    intro hb h hd h0
    have hb' : ∀ x ∈ t', isDigitChar x = true := fun x hx => hb x (by simp [hx])
    have hbc : isDigitChar c = true := hb c (by simp)
    have hx : (h :: (t' ++ [c])) = (h :: t') ++ [c] := by simp
    rw [hx, decVal_append, decVal_singleton]
    have hge : 1 ≤ decVal (h :: t') := by
      rw [decVal_cons]
      have h1 : 1 ≤ digitVal h := digitVal_pos_of_ne_zero hd h0
      have h2p : (1 : Nat) ≤ 10 ^ t'.length := Nat.one_le_pow _ _ (by omega)
      nlinarith
    have hcv : digitVal c < 10 := digitVal_lt_of_isDigitChar hbc
    have hnl : ¬ decVal (h :: t') * 10 ^ (List.length [c]) + digitVal c < 10 := by
      simp only [List.length_singleton, pow_one]
      omega
    rw [natDigits_large hnl]
    have hdiv : (decVal (h :: t') * 10 ^ (List.length [c]) + digitVal c) / 10
        = decVal (h :: t') := by
      simp only [List.length_singleton, pow_one]
      omega
    have hmod : (decVal (h :: t') * 10 ^ (List.length [c]) + digitVal c) % 10
        = digitVal c := by
      simp only [List.length_singleton, pow_one]
      omega
    rw [hdiv, hmod, ih hb' h hd h0, digitChar_digitVal hbc]

theorem natDigits_length_le : ∀ (k : Nat), 1 ≤ k → ∀ n < 10 ^ k, (natDigits n).length ≤ k := by
  intro k
  induction k with
  | zero => omega
  | succ k ih =>
    intro _ n hn
    by_cases h : n < 10
    · rw [natDigits_small h]
      simp only [List.length_singleton]
      omega
    · rw [natDigits_large h]
      have hk : 1 ≤ k := by
        by_contra hk0
        have : k = 0 := by omega
        subst this
        simp at hn
        omega
      have hdiv : n / 10 < 10 ^ k := by
        rw [Nat.div_lt_iff_lt_mul (by omega)]
        calc n < 10 ^ (k + 1) := hn
        _ = 10 ^ k * 10 := by rw [pow_succ]
      have := ih hk (n / 10) hdiv
      simp [List.length_append]
      omega

/-- Left-zero-padding the rendering of a digit string's value recovers the
string itself. -/
theorem padStart_natDigits_decVal :
    ∀ ds : List Char, 1 ≤ ds.length → (∀ c ∈ ds, isDigitChar c = true) →
      padStartList ds.length '0' (natDigits (decVal ds)) = ds := by
  intro ds
  induction ds with
  | nil => intro h; simp at h
  | cons c t ih =>
    intro _ hb
    have hbc : isDigitChar c = true := hb c (by simp)
    have hb' : ∀ x ∈ t, isDigitChar x = true := fun x hx => hb x (by simp [hx])
    by_cases hc : c = '0'
    · subst hc
      have hbv : decVal ('0' :: t) = decVal t := by
        rw [decVal_cons]
        have hd0 : digitVal '0' = 0 := rfl
        rw [hd0]
        simp
      by_cases ht : t = []
      · subst ht
        decide
      · have htlen : 1 ≤ t.length := by
          have := List.length_pos.mpr ht
          omega
        have hlen : (natDigits (decVal t)).length ≤ t.length :=
          natDigits_length_le t.length htlen (decVal t) (decVal_lt hb')
        have hih := ih htlen hb'
        rw [hbv]
        unfold padStartList at hih ⊢
        have hlc : ('0' :: t).length - (natDigits (decVal t)).length
            = (t.length - (natDigits (decVal t)).length) + 1 := by
          simp only [List.length_cons]
          omega
        rw [hlc, List.replicate_succ, List.cons_append, hih]
    · rw [natDigits_decVal_head_ne_zero t hb' c hbc hc]
      unfold padStartList
      simp

/-! ## Chunking lemmas -/

theorem chunksOf3_flatten : ∀ l : List Char, (chunksOf3 l).flatten = l := by
  intro l
  induction l using chunksOf3.induct with
  | case1 => rfl
  | case2 a b c rest ih => simp [chunksOf3, ih]
  | case3 l h1 h2 =>
    cases l with
    | nil => rfl
    | cons a t =>
      cases t with
      | nil => rfl
      | cons b t' =>
        cases t' with
        | nil => rfl
        | cons c t'' => exact absurd rfl (h2 a b c t'')

theorem chunksOf3_structure : ∀ l : List Char, l ≠ [] →
    ∃ init lst, chunksOf3 l = init ++ [lst] ∧ l = init.flatten ++ lst ∧
      (∀ c ∈ init, c.length = 3) ∧ 1 ≤ lst.length ∧ lst.length ≤ 3 := by
  intro l
  induction l using chunksOf3.induct with
  | case1 => intro h; exact absurd rfl h
  | case2 a b c rest ih =>
    intro _
    by_cases hrest : rest = []
    · subst hrest
      exact ⟨[], [a, b, c], by simp [chunksOf3], by simp, by simp, by simp, by simp⟩
    · obtain ⟨init, lst, h1, h2, h3, h4, h5⟩ := ih hrest
      refine ⟨[a, b, c] :: init, lst, ?_, ?_, ?_, h4, h5⟩
      · simp [chunksOf3, h1]
      · simp [h2]
      · intro x hx
        rw [List.mem_cons] at hx
        rcases hx with hx | hx
        · simp [hx]
        · exact h3 x hx
  | case3 l h1 h2 =>
    intro hne
    cases l with
    | nil => exact absurd rfl hne
    | cons a t =>
      cases t with
      | nil => exact ⟨[], [a], rfl, by simp, by simp, by simp, by simp⟩
      | cons b t' =>
        cases t' with
        | nil => exact ⟨[], [a, b], rfl, by simp, by simp, by simp, by simp⟩
        | cons c t'' => exact absurd rfl (h2 a b c t'')

theorem chunks10_nil_of_short : ∀ l : List Char, l.length < 10 → chunks10 l = [] := by
  intro l h
  cases l with
  | nil => rfl
  | cons c0 l' =>
  cases l' with
  | nil => rfl
  | cons c1 l'' =>
  cases l'' with
  | nil => rfl
  | cons c2 l''' =>
  cases l''' with
  | nil => rfl
  | cons c3 l'''' =>
  cases l'''' with
  | nil => rfl
  | cons c4 l''''' =>
  cases l''''' with
  | nil => rfl
  | cons c5 l'''''' =>
  cases l'''''' with
  | nil => rfl
  | cons c6 l''''''' =>
  cases l''''''' with
  | nil => rfl
  | cons c7 l'''''''' =>
  cases l'''''''' with
  | nil => rfl
  | cons c8 l''''''''' =>
  cases l''''''''' with
  | nil => rfl
  | cons c9 l'''''''''' =>
  exfalso
  simp only [List.length_cons, List.length_nil] at h
  omega

theorem chunks10_cons10 (b l : List Char) (hb : b.length = 10) :
    chunks10 (b ++ l) = b :: chunks10 l := by
  cases b with
  | nil =>
    simp only [List.length_cons, List.length_nil] at hb
    omega
  | cons c0 b =>
  cases b with
  | nil =>
    simp only [List.length_cons, List.length_nil] at hb
    omega
  | cons c1 b =>
  cases b with
  | nil =>
    simp only [List.length_cons, List.length_nil] at hb
    omega
  | cons c2 b =>
  cases b with
  | nil =>
    simp only [List.length_cons, List.length_nil] at hb
    omega
  | cons c3 b =>
  cases b with
  | nil =>
    simp only [List.length_cons, List.length_nil] at hb
    omega
  | cons c4 b =>
  cases b with
  | nil =>
    simp only [List.length_cons, List.length_nil] at hb
    omega
  | cons c5 b =>
  cases b with
  | nil =>
    simp only [List.length_cons, List.length_nil] at hb
    omega
  | cons c6 b =>
  cases b with
  | nil =>
    simp only [List.length_cons, List.length_nil] at hb
    omega
  | cons c7 b =>
  cases b with
  | nil =>
    simp only [List.length_cons, List.length_nil] at hb
    omega
  | cons c8 b =>
  cases b with
  | nil =>
    simp only [List.length_cons, List.length_nil] at hb
    omega
  | cons c9 b =>
  cases b with
  | nil => rfl
  | cons c10 b =>
    exfalso
    simp [List.length_cons] at hb

theorem chunks10_flatten_extra :
    ∀ bs : List (List Char), (∀ b ∈ bs, b.length = 10) →
      ∀ extra : List Char, extra.length < 10 →
      chunks10 (bs.flatten ++ extra) = bs := by
  intro bs
  induction bs with
  | nil =>
    intro _ extra hx
    simpa using chunks10_nil_of_short extra hx
  | cons b rest ih =>
    intro hb extra hx
    have hb10 : b.length = 10 := hb b (by simp)
    have : (b :: rest).flatten ++ extra = b ++ (rest.flatten ++ extra) := by simp
    rw [this, chunks10_cons10 b _ hb10, ih (fun x hx' => hb x (by simp [hx'])) extra hx]

theorem chunks5_cons5 (b l : List Char) (hb : b.length = 5) :
    chunks5 (b ++ l) = b :: chunks5 l := by
  cases b with
  | nil =>
    simp only [List.length_cons, List.length_nil] at hb
    omega
  | cons c0 b =>
  cases b with
  | nil =>
    simp only [List.length_cons, List.length_nil] at hb
    omega
  | cons c1 b =>
  cases b with
  | nil =>
    simp only [List.length_cons, List.length_nil] at hb
    omega
  | cons c2 b =>
  cases b with
  | nil =>
    simp only [List.length_cons, List.length_nil] at hb
    omega
  | cons c3 b =>
  cases b with
  | nil =>
    simp only [List.length_cons, List.length_nil] at hb
    omega
  | cons c4 b =>
  cases b with
  | nil => rfl
  | cons c5 b =>
    exfalso
    simp [List.length_cons] at hb

theorem chunks5_flatten :
    ∀ ts : List (List Char), (∀ t ∈ ts, t.length = 5) → chunks5 ts.flatten = ts := by
  intro ts
  induction ts with
  | nil => intro _; rfl
  | cons t rest ih =>
    intro ht
    have ht5 : t.length = 5 := ht t (by simp)
    have : (t :: rest).flatten = t ++ rest.flatten := by simp
    rw [this, chunks5_cons5 t _ ht5, ih (fun x hx => ht x (by simp [hx]))]

/-! ## `parseInt` on clean inputs -/

theorem takeWhile_all {p : Char → Bool} :
    ∀ l : List Char, (∀ c ∈ l, p c = true) → l.takeWhile p = l := by
  intro l
  induction l with
  | nil => intro _; rfl
  | cons c t ih =>
    intro h
    have hc : p c = true := h c (by simp)
    simp [List.takeWhile_cons, hc, ih (fun x hx => h x (by simp [hx]))]

theorem ne_of_isDigitChar {c d : Char} (h : isDigitChar c = true)
    (hd : isDigitChar d = false) : c ≠ d := by
  intro he
  subst he
  rw [h] at hd
  cases hd

theorem isDigitChar_not_space {c : Char} (h : isDigitChar c = true) :
    isJsSpace c = false := by
  obtain ⟨hl, hr⟩ := isDigitChar_toNat h
  cases hx : isJsSpace c
  · rfl
  · exfalso
    simp only [isJsSpace, Bool.or_eq_true, decide_eq_true_eq] at hx
    rcases hx with ((((h1 | h1) | h1) | h1) | h1) | h1 <;> subst h1 <;>
      revert hl hr <;> decide

theorem isBinChar_isDigitChar {c : Char} (h : isBinChar c) : isDigitChar c = true := by
  rcases h with h | h <;> subst h <;> decide

theorem jsParseInt_digits {l : List Char} (hne : l ≠ [])
    (hd : ∀ c ∈ l, isDigitChar c = true) :
    jsParseInt l = some ((decVal l : Nat) : Int) := by
  obtain ⟨c, t, rfl⟩ : ∃ c t, l = c :: t := by
    cases l with
    | nil => exact absurd rfl hne
    | cons a t => exact ⟨a, t, rfl⟩
  have hc : isDigitChar c = true := hd c (by simp)
  have hdrop : (c :: t).dropWhile isJsSpace = c :: t := by
    rw [List.dropWhile_cons, isDigitChar_not_space hc]
    simp
  have htake1 : (c :: t).take 1 = [c] := by simp
  have hcm : c ≠ '-' := ne_of_isDigitChar hc (by decide)
  have hcp : c ≠ '+' := ne_of_isDigitChar hc (by decide)
  have hdig : jsParseIntDigits (c :: t) = some (decVal (c :: t)) := by
    have hx : ¬ ((c :: t).take 2 = ['0', 'x'] ∨ (c :: t).take 2 = ['0', 'X']) := by
      cases t with
      | nil => simp
      | cons t0 t' =>
        have ht0 : isDigitChar t0 = true := hd t0 (by simp)
        have hx1 : t0 ≠ 'x' := ne_of_isDigitChar ht0 (by decide)
        have hx2 : t0 ≠ 'X' := ne_of_isDigitChar ht0 (by decide)
        simp [hx1, hx2]
    rw [jsParseIntDigits, if_neg hx]
    have : (c :: t).takeWhile isDigitChar = c :: t := takeWhile_all _ hd
    simp [this]
  unfold jsParseInt
  simp only [hdrop, htake1]
  rw [if_neg (by simp [hcm]), if_neg (by simp [hcp]), hdig]
  rfl

theorem jsParseInt2_binary {l : List Char} (hne : l ≠ [])
    (hb : ∀ c ∈ l, isBinChar c) :
    jsParseInt2 l = some ((binVal l : Nat) : Int) := by
  obtain ⟨c, t, rfl⟩ : ∃ c t, l = c :: t := by
    cases l with
    | nil => exact absurd rfl hne
    | cons a t => exact ⟨a, t, rfl⟩
  have hc : isBinChar c := hb c (by simp)
  have hcd : isDigitChar c = true := isBinChar_isDigitChar hc
  have hdrop : (c :: t).dropWhile isJsSpace = c :: t := by
    rw [List.dropWhile_cons, isDigitChar_not_space hcd]
    simp
  have hcm : c ≠ '-' := ne_of_isDigitChar hcd (by decide)
  have hcp : c ≠ '+' := ne_of_isDigitChar hcd (by decide)
  have hall : ∀ x ∈ c :: t, (x = '0' || x = '1') = true := by
    intro x hx
    rcases hb x hx with h | h <;> subst h <;> decide
  unfold jsParseInt2
  simp only [hdrop]
  rw [if_neg (by simp [hcm]), if_neg (by simp [hcp])]
  simp only [takeWhile_all _ hall]
  rw [if_neg (by simp)]
  rfl

/-! ## The 10-bit chunk codec -/

theorem intToString_ofNat (v : Nat) : intToString ((v : Nat) : Int) = natDigits v := by
  unfold intToString
  rw [if_neg (by omega)]
  simp

theorem intToString2_ofNat (v : Nat) : intToString2 ((v : Nat) : Int) = natToBin v := by
  unfold intToString2
  rw [if_neg (by omega)]
  simp

theorem padStartList_length {w : Nat} {l : List Char} (h : l.length ≤ w) :
    (padStartList w '0' l).length = w := by
  unfold padStartList
  simp [List.length_append, List.length_replicate]
  omega

theorem padStartList_chars {w : Nat} {l : List Char} (hb : ∀ c ∈ l, isBinChar c) :
    ∀ c ∈ padStartList w '0' l, isBinChar c := by
  intro c hc
  unfold padStartList at hc
  rw [List.mem_append] at hc
  rcases hc with hc | hc
  · have := List.eq_of_mem_replicate hc
    exact Or.inl this
  · exact hb c hc

theorem binVal_padStartList (w : Nat) (m : Nat) :
    binVal (padStartList w '0' (natToBin m)) = m := by
  unfold padStartList
  rw [binVal_replicate_zero, binVal_natToBin]

theorem bits10_head_ge {m : Nat} (h5 : 512 ≤ m) (h : m < 1024) :
    (padStartList 10 '0' (natToBin m)).headD ' ' = '1' := by
  have hle : (natToBin m).length ≤ 10 := natToBin_length_le 10 (by omega) m h
  have hge : 10 ≤ (natToBin m).length := natToBin_length_ge 9 m h5
  have hlen : (natToBin m).length = 10 := by omega
  obtain ⟨t, ht⟩ := natToBin_head_one m (by omega)
  unfold padStartList
  rw [hlen]
  simp [ht]

theorem bits10_head_lt {m : Nat} (h : m < 512) :
    (padStartList 10 '0' (natToBin m)).headD ' ' = '0' := by
  have hle : (natToBin m).length ≤ 9 := natToBin_length_le 9 (by omega) m h
  unfold padStartList
  have h10 : 10 - (natToBin m).length = (9 - (natToBin m).length) + 1 := by omega
  rw [h10, List.replicate_succ]
  simp

theorem rToBinary_some (e : Int) :
    rToBinary (some e)
      = padStartList 10 '0' (intToString2 (if e < 0 then 1024 + e else e)) := rfl

theorem decodeTenBitChunk_eq {chunk : List Char} {m : Nat}
    (hp : jsParseInt2 chunk = some ((m : Nat) : Int)) :
    decodeTenBitChunk chunk
      = formatNVal (500 - (if chunk.headD ' ' = '1'
          then ((m : Nat) : Int) - 1024 else ((m : Nat) : Int))) := by
  unfold decodeTenBitChunk
  rw [hp]

/-- The canonical 10-bit form of `rToBinary` on in-range values. -/
theorem rToBinary_eq_padStart {e : Int} (h1 : -499 ≤ e) (h2 : e ≤ 500) :
    rToBinary (some e)
      = padStartList 10 '0' (natToBin (if e < 0 then 1024 + e else e).toNat) := by
  rw [rToBinary_some]
  by_cases hneg : e < 0
  · rw [if_pos hneg]
    have hx : (1024 + e) = (((1024 + e).toNat : Nat) : Int) := by omega
    rw [hx, intToString2_ofNat]
    have hy : ((((1024 + e).toNat : Nat) : Int)).toNat = (1024 + e).toNat := by omega
    rw [hy]
  · rw [if_neg hneg]
    have hx : e = ((e.toNat : Nat) : Int) := by omega
    rw [hx, intToString2_ofNat]
    rw [← hx]

/-- Decoding a 10-bit chunk produced by `rToBinary` recovers exactly the
`formatNVal` rendering of the original 3-digit value. -/
theorem decodeTenBitChunk_rToBinary {e : Int} (h1 : -499 ≤ e) (h2 : e ≤ 500) :
    decodeTenBitChunk (rToBinary (some e)) = formatNVal (500 - e) := by
  rw [rToBinary_eq_padStart h1 h2]
  set m : Nat := (if e < 0 then 1024 + e else e).toNat with hm
  have hmu : m < 1024 := by
    rw [hm]
    by_cases hneg : e < 0
    · rw [if_pos hneg]; omega
    · rw [if_neg hneg]; omega
  have hchars := padStartList_chars (w := 10) (natToBin_chars m)
  have hlen : (padStartList 10 '0' (natToBin m)).length = 10 :=
    padStartList_length (natToBin_length_le 10 (by omega) _ hmu)
  have hne : padStartList 10 '0' (natToBin m) ≠ [] := by
    intro hnil
    rw [hnil] at hlen
    simp at hlen
  have hp : jsParseInt2 (padStartList 10 '0' (natToBin m)) = some ((m : Nat) : Int) := by
    rw [jsParseInt2_binary hne hchars, binVal_padStartList]
  rw [decodeTenBitChunk_eq hp]
  by_cases hneg : e < 0
  · have hmv : 512 ≤ m := by rw [hm, if_pos hneg]; omega
    rw [bits10_head_ge hmv hmu, if_pos rfl]
    have hme : ((m : Nat) : Int) - 1024 = e := by rw [hm, if_pos hneg]; omega
    rw [hme]
  · have hmv : m < 512 := by rw [hm, if_neg hneg]; omega
    rw [bits10_head_lt hmv, if_neg (by decide)]
    have hme : ((m : Nat) : Int) = e := by rw [hm, if_neg hneg]; omega
    rw [hme]

theorem rToBinary_length {e : Int} (h1 : -499 ≤ e) (h2 : e ≤ 500) :
    (rToBinary (some e)).length = 10 := by
  rw [rToBinary_eq_padStart h1 h2]
  refine padStartList_length (natToBin_length_le 10 (by omega) _ ?_)
  by_cases hneg : e < 0
  · rw [if_pos hneg]; omega
  · rw [if_neg hneg]; omega

/-! ## `formatNVal` rendering -/

theorem natDigits_length_bounds {v : Nat} (h : v ≤ 999) :
    1 ≤ (natDigits v).length ∧ (natDigits v).length ≤ 3 := by
  constructor
  · have := natDigits_ne_nil v
    cases hl : natDigits v with
    | nil => exact absurd hl this
    | cons a t => simp
  · exact natDigits_length_le 3 (by omega) v (by omega)

theorem formatNVal_ofNat {v : Nat} (h : v ≤ 999) :
    formatNVal ((v : Nat) : Int)
      = List.replicate (3 - (natDigits v).length) 'X' ++ natDigits v := by
  unfold formatNVal
  by_cases h1 : v < 10
  · rw [if_pos (by omega), intToString_ofNat, natDigits_length_of_lt_10 h1]
    rfl
  · by_cases h2 : v < 100
    · rw [if_neg (by omega), if_pos (by omega), intToString_ofNat,
        natDigits_length_two (by omega) h2]
      rfl
    · rw [if_neg (by omega), if_neg (by omega), intToString_ofNat,
        natDigits_length_three (by omega) (by omega)]
      rfl

theorem formatNVal_length {v : Nat} (h : v ≤ 999) :
    (formatNVal ((v : Nat) : Int)).length = 3 := by
  rw [formatNVal_ofNat h]
  obtain ⟨hd1, hd3⟩ := natDigits_length_bounds h
  simp [List.length_append, List.length_replicate]
  omega

theorem mapX_digits {ds : List Char} (hd : ∀ c ∈ ds, isDigitChar c = true) :
    ds.map (fun c => if c = 'X' then '0' else c) = ds := by
  induction ds with
  | nil => rfl
  | cons c t ih =>
    have hc : c ≠ 'X' := ne_of_isDigitChar (hd c (by simp)) (by decide)
    simp only [List.map_cons, if_neg hc, ih (fun x hx => hd x (by simp [hx]))]

theorem mapX_formatNVal {v : Nat} (h : v ≤ 999) :
    (formatNVal ((v : Nat) : Int)).map (fun c => if c = 'X' then '0' else c)
      = List.replicate (3 - (natDigits v).length) '0' ++ natDigits v := by
  rw [formatNVal_ofNat h, List.map_append, List.map_replicate,
    mapX_digits (natDigits_chars v)]
  simp

/-! ## The step-6 `X`-preferring trim -/

theorem removeXFromEnd_budget_zero : ∀ l : List Char, removeXFromEnd l 0 = (l, 0) := by
  intro l
  induction l with
  | nil => rfl
  | cons c t ih => simp [removeXFromEnd, ih]

theorem removeXFromEnd_noX :
    ∀ l : List Char, (∀ c ∈ l, c ≠ 'X') → ∀ k, removeXFromEnd l k = (l, k) := by
  intro l
  induction l with
  | nil => intro _ k; rfl
  | cons c t ih =>
    intro h k
    have hc : c ≠ 'X' := h c (by simp)
    simp [removeXFromEnd, ih (fun x hx => h x (by simp [hx])) k, hc]

theorem removeXFromEnd_cons (c : Char) (rest : List Char) (k : Nat)
    (r1 : List Char) (r2 : Nat) (hr : removeXFromEnd rest k = (r1, r2)) :
    removeXFromEnd (c :: rest) k
      = if c = 'X' ∧ 0 < r2 then (r1, r2 - 1) else (c :: r1, r2) := by
  simp only [removeXFromEnd, hr]

theorem removeXFromEnd_append :
    ∀ a b : List Char, ∀ k b2 : Nat, ∀ b1 : List Char, ∀ a2 : Nat, ∀ a1 : List Char,
      removeXFromEnd b k = (b1, b2) → removeXFromEnd a b2 = (a1, a2) →
      removeXFromEnd (a ++ b) k = (a1 ++ b1, a2) := by
  intro a
  induction a with
  | nil =>
    intro b k b2 b1 a2 a1 hb ha
    have h0 : removeXFromEnd ([] : List Char) b2 = ([], b2) := rfl
    rw [h0] at ha
    injection ha with ha1 ha2
    subst ha1
    subst ha2
    simpa using hb
  | cons c t ih =>
    intro b k b2 b1 a2 a1 hb ha
    rcases hrt : removeXFromEnd t b2 with ⟨t1, t2⟩
    have hib : removeXFromEnd (t ++ b) k = (t1 ++ b1, t2) := ih b k b2 b1 t2 t1 hb hrt
    rw [removeXFromEnd_cons c t b2 t1 t2 hrt] at ha
    rw [List.cons_append, removeXFromEnd_cons c (t ++ b) k _ _ hib]
    by_cases hc : c = 'X' ∧ 0 < t2
    · rw [if_pos hc] at ha ⊢
      injection ha with ha1 ha2
      subst ha1
      subst ha2
      rfl
    · rw [if_neg hc] at ha ⊢
      injection ha with ha1 ha2
      subst ha1
      subst ha2
      rfl

theorem removeXFromEnd_replicateX :
    ∀ j e : Nat, removeXFromEnd (List.replicate j 'X') e
      = (List.replicate (j - e) 'X', e - j) := by
  intro j
  induction j with
  | zero => intro e; simp [removeXFromEnd]
  | succ j ih =>
    intro e
    rw [List.replicate_succ, removeXFromEnd_cons 'X' _ e _ _ (ih e)]
    by_cases he : e ≤ j
    · have h2 : ¬ ('X' = 'X' ∧ 0 < e - j) := by
        intro hx
        omega
      rw [if_neg h2]
      have hj1 : j + 1 - e = (j - e) + 1 := by omega
      rw [hj1, List.replicate_succ]
      have hj2 : e - (j + 1) = e - j := by omega
      rw [hj2]
    · have h2 : ('X' = 'X' ∧ 0 < e - j) := ⟨rfl, by omega⟩
      rw [if_pos h2]
      have hj1 : j + 1 - e = 0 := by omega
      have hj2 : j - e = 0 := by omega
      rw [hj1, hj2]
      have hj3 : e - j - 1 = e - (j + 1) := by omega
      rw [hj3]

/-- The step-6 trim on a string ending in an `X`-padded digit block with at
least `e`-many `X`s: exactly the last `e` `X`s disappear. -/
theorem adjustedString_spec (pre D : List Char) (jj e : Nat)
    (hD : ∀ c ∈ D, c ≠ 'X')
    (he : (pre ++ (List.replicate jj 'X' ++ D)).length % 5 = e)
    (hje : e ≤ jj) :
    adjustedString (pre ++ (List.replicate jj 'X' ++ D))
      = pre ++ (List.replicate (jj - e) 'X' ++ D) := by
  unfold adjustedString
  rw [he]
  by_cases he0 : e = 0
  · subst he0
    simp
  · rw [if_neg he0]
    have hD' : removeXFromEnd D e = (D, e) := removeXFromEnd_noX D hD e
    have hrep : removeXFromEnd (List.replicate jj 'X') e
        = (List.replicate (jj - e) 'X', 0) := by
      rw [removeXFromEnd_replicateX]
      have : e - jj = 0 := by omega
      rw [this]
    have hmid : removeXFromEnd (List.replicate jj 'X' ++ D) e
        = (List.replicate (jj - e) 'X' ++ D, 0) :=
      removeXFromEnd_append _ D e e D _ (List.replicate (jj - e) 'X') hD' hrep
    have hall : removeXFromEnd (pre ++ (List.replicate jj 'X' ++ D)) e
        = (pre ++ (List.replicate (jj - e) 'X' ++ D), 0) :=
      removeXFromEnd_append pre _ e 0 _ 0 pre hmid (removeXFromEnd_budget_zero pre)
    rw [hall]
    simp

theorem removeXFromEnd_length :
    ∀ l : List Char, ∀ k : Nat, ∀ r1 : List Char, ∀ r2 : Nat,
      removeXFromEnd l k = (r1, r2) → r2 ≤ k ∧ r1.length + (k - r2) = l.length := by
  intro l
  induction l with
  | nil =>
    intro k r1 r2 h
    have h0 : removeXFromEnd ([] : List Char) k = ([], k) := rfl
    rw [h0] at h
    injection h with h1 h2
    subst h1
    subst h2
    simp
  | cons c t ih =>
    intro k r1 r2 h
    rcases ht : removeXFromEnd t k with ⟨t1, t2⟩
    obtain ⟨hle, hlen⟩ := ih k t1 t2 ht
    rw [removeXFromEnd_cons c t k t1 t2 ht] at h
    by_cases hc : c = 'X' ∧ 0 < t2
    · rw [if_pos hc] at h
      injection h with h1 h2
      subst h1
      subst h2
      constructor
      · omega
      · simp only [List.length_cons]
        omega
    · rw [if_neg hc] at h
      injection h with h1 h2
      subst h1
      subst h2
      constructor
      · omega
      · simp only [List.length_cons]
        omega

/-- The step-6 adjustment removes exactly `length % 5` characters. -/
theorem adjustedString_length (s : List Char) :
    (adjustedString s).length = s.length - s.length % 5 := by
  unfold adjustedString
  by_cases h0 : s.length % 5 = 0
  · rw [if_pos h0]
    omega
  · rw [if_neg h0]
    rcases hr : removeXFromEnd s (s.length % 5) with ⟨r1, r2⟩
    obtain ⟨hle, hlen⟩ := removeXFromEnd_length s (s.length % 5) r1 r2 hr
    have hmod : s.length % 5 ≤ s.length := Nat.mod_le _ _
    simp only [List.length_take]
    omega

theorem mapX_replicateX (n : Nat) :
    (List.replicate n 'X').map (fun ch => if ch = 'X' then '0' else ch)
      = List.replicate n '0' := by
  rw [List.map_replicate]
  simp

/-- Flattening equal-length-3 blocks. -/
theorem flatten_length_three :
    ∀ L : List (List Char), (∀ x ∈ L, x.length = 3) → L.flatten.length = 3 * L.length := by
  intro L
  induction L with
  | nil => intro _; simp
  | cons x t ih =>
    intro h
    have hx : x.length = 3 := h x (by simp)
    simp only [List.flatten_cons, List.length_append, hx,
      ih (fun y hy => h y (by simp [hy])), List.length_cons]
    ring

/-- The heart of the compact decode: steps 5-6 invert the encoder's 3-digit
chunk packing on any non-empty all-digit numeric string whose length is a
multiple of 5. -/
theorem intermediate_roundtrip (ns : List Char) (hne : ns ≠ [])
    (hd : ∀ c ∈ ns, isDigitChar c = true) (h5 : ns.length % 5 = 0) :
    (adjustedString (((chunksOf3 ns).map
        (fun c => decodeTenBitChunk (rToBinary (some (500 - ((decVal c : Nat) : Int)))))).flatten)).map
      (fun ch => if ch = 'X' then '0' else ch) = ns := by
  obtain ⟨init, lst, hC, hns, hinit3, hl1, hl3⟩ := chunksOf3_structure ns hne
  -- membership: every chunk is made of digits
  have hmem : ∀ x ∈ chunksOf3 ns, ∀ c ∈ x, isDigitChar c = true := by
    intro x hx c hc
    apply hd
    rw [← chunksOf3_flatten ns]
    exact List.mem_flatten.mpr ⟨x, hx, hc⟩
  have hinitd : ∀ x ∈ init, ∀ c ∈ x, isDigitChar c = true := by
    intro x hx
    exact hmem x (by rw [hC]; exact List.mem_append.mpr (Or.inl hx))
  have hlstd : ∀ c ∈ lst, isDigitChar c = true := by
    exact hmem lst (by rw [hC]; exact List.mem_append.mpr (Or.inr (by simp)))
  -- per-chunk: the decoded ten-bit chunk is the X-padded digit rendering
  have hchunk : ∀ x : List Char, (∀ c ∈ x, isDigitChar c = true) → 1 ≤ x.length →
      x.length ≤ 3 →
      decodeTenBitChunk (rToBinary (some (500 - ((decVal x : Nat) : Int))))
        = List.replicate (3 - (natDigits (decVal x)).length) 'X' ++ natDigits (decVal x) := by
    intro x hxd hx1 hx3
    have hv : decVal x < 1000 := by
      have := decVal_lt hxd
      have h10 : (10 : Nat) ^ x.length ≤ 10 ^ 3 :=
        Nat.pow_le_pow_right (by omega) hx3
      have : decVal x < 10 ^ 3 := by omega
      simpa using this
    have he1 : -499 ≤ 500 - ((decVal x : Nat) : Int) := by omega
    have he2 : 500 - ((decVal x : Nat) : Int) ≤ 500 := by omega
    rw [decodeTenBitChunk_rToBinary he1 he2]
    have hx : (500 : Int) - (500 - ((decVal x : Nat) : Int)) = ((decVal x : Nat) : Int) := by
      omega
    rw [hx, formatNVal_ofNat (by omega)]
  -- name the rendered pieces
  set fmt : List Char → List Char :=
    fun c => List.replicate (3 - (natDigits (decVal c)).length) 'X' ++ natDigits (decVal c)
    with hfmt
  have hmapped : (chunksOf3 ns).map
      (fun c => decodeTenBitChunk (rToBinary (some (500 - ((decVal c : Nat) : Int)))))
      = (chunksOf3 ns).map fmt := by
    apply List.map_congr_left
    intro x hx
    have hx1 : 1 ≤ x.length ∧ x.length ≤ 3 := by
      rw [hC] at hx
      rcases List.mem_append.mp hx with hx' | hx'
      · have := hinit3 x hx'
        omega
      · have : x = lst := by simpa using hx'
        subst this
        exact ⟨hl1, hl3⟩
    exact hchunk x (hmem x hx) hx1.1 hx1.2
  rw [hmapped, hC, List.map_append]
  simp only [List.map_cons, List.map_nil, List.flatten_append, List.flatten_cons,
    List.flatten_nil, List.append_nil]
  -- the final block of the intermediate string
  have hdl : (natDigits (decVal lst)).length ≤ lst.length := by
    apply natDigits_length_le lst.length hl1
    exact decVal_lt hlstd
  have hfmt3 : ∀ x ∈ init.map fmt, x.length = 3 := by
    intro x hx
    rw [List.mem_map] at hx
    obtain ⟨c, hc, rfl⟩ := hx
    have h3 : c.length = 3 := hinit3 c hc
    have hdc : (natDigits (decVal c)).length ≤ 3 := by
      have := natDigits_length_le c.length (by omega) (decVal c) (decVal_lt (hinitd c hc))
      omega
    have hd1 : 1 ≤ (natDigits (decVal c)).length := by
      have := natDigits_ne_nil (decVal c)
      cases hl : natDigits (decVal c) with
      | nil => exact absurd hl this
      | cons a t => simp
    rw [hfmt]
    simp only [List.length_append, List.length_replicate]
    omega
  have hprelen : ((init.map fmt).flatten).length = 3 * init.length :=
    (flatten_length_three _ hfmt3).trans (by rw [List.length_map])
  have hnslen : ns.length = 3 * init.length + lst.length := by
    rw [hns]
    simp only [List.length_append]
    rw [flatten_length_three init hinit3]
  have htb : 1 ≤ lst.length ∧ lst.length ≤ 3 := ⟨hl1, hl3⟩
  -- apply the trim lemma
  have hadj := adjustedString_spec ((init.map fmt).flatten) (natDigits (decVal lst))
    (3 - (natDigits (decVal lst)).length) (3 - lst.length)
    (fun c hc => ne_of_isDigitChar (natDigits_chars _ c hc) (by decide))
    (by
      simp only [List.length_append, List.length_replicate, hprelen]
      have hdg1 : 1 ≤ (natDigits (decVal lst)).length := by
        have := natDigits_ne_nil (decVal lst)
        cases hl : natDigits (decVal lst) with
        | nil => exact absurd hl this
        | cons a t => simp
      omega)
    (by omega)
  rw [hfmt] at hadj
  rw [hadj]
  -- map X→0 over the pieces
  rw [List.map_append, List.map_append, mapX_replicateX,
    mapX_digits (natDigits_chars (decVal lst))]
  -- the prefix blocks are recovered
  have hpre : ((init.map fmt).flatten).map (fun ch => if ch = 'X' then '0' else ch)
      = init.flatten := by
    rw [List.map_flatten, List.map_map]
    have hmapid : init.map ((List.map fun ch => if ch = 'X' then '0' else ch) ∘ fmt)
        = init.map (fun c => c) := by
      apply List.map_congr_left
      intro c hc
      have h3 : c.length = 3 := hinit3 c hc
      have hps := padStart_natDigits_decVal c (by omega) (hinitd c hc)
      rw [hfmt]
      simp only [Function.comp]
      rw [List.map_append, mapX_replicateX, mapX_digits (natDigits_chars (decVal c))]
      unfold padStartList at hps
      rw [h3] at hps
      exact hps
    rw [hmapid, List.map_id']
  rw [hpre]
  -- and the last block
  have hlast : List.replicate (3 - (natDigits (decVal lst)).length - (3 - lst.length)) '0'
      ++ natDigits (decVal lst) = lst := by
    have := padStart_natDigits_decVal lst hl1 hlstd
    unfold padStartList at this
    have harith : 3 - (natDigits (decVal lst)).length - (3 - lst.length)
        = lst.length - (natDigits (decVal lst)).length := by omega
    rw [harith]
    exact this
  rw [hlast, ← hns]

/-! ## Matrix and header facts (finite checks) -/

theorem matrix_index_fact :
    ∀ a : Nat, a < 8 → ∀ b : Nat, b < 8 →
      kcgCharIndex ((KCG_CHAR_MATRIX.getD a []).getD b ' ') = some (8 * a + b) := by
  decide

theorem matrix_member_fact :
    ∀ a : Nat, a < 8 → ∀ b : Nat, b < 8 →
      kcgCharSetHas ((KCG_CHAR_MATRIX.getD a []).getD b ' ') = true := by
  decide

theorem matrix_remove_fact :
    ∀ a : Nat, a < 8 → ∀ b : Nat, b < 8 →
      charsToRemoveFromPayloadEnd ((KCG_CHAR_MATRIX.getD a []).getD b ' ')
        = if b = 7 then 0 else 7 - a := by
  decide

/-! ## The 6-bit symbol layer -/

theorem bodyChars_nil : bodyChars [] = [] := rfl

/-- Re-reading the emitted body characters as 6-bit groups recovers exactly
the padded binary string, for an even list of 3-bit binary groups. -/
theorem bodyChars_roundtrip :
    ∀ o : List (List Char), (∀ g ∈ o, g.length = 3 ∧ (∀ c ∈ g, isBinChar c)) →
      o.length % 2 = 0 → initialBinaryPayload (bodyChars o) = o.flatten
  | [], _, _ => rfl
  | [g], _, hev => by simp at hev
  | g1 :: g2 :: rest, hg, hev => by
    obtain ⟨hg1l, hg1b⟩ := hg g1 (by simp)
    obtain ⟨hg2l, hg2b⟩ := hg g2 (by simp)
    have hg1ne : g1 ≠ [] := by
      intro h
      rw [h] at hg1l
      simp at hg1l
    have hg2ne : g2 ≠ [] := by
      intro h
      rw [h] at hg2l
      simp at hg2l
    have hp1 : jsParseInt2 g1 = some ((binVal g1 : Nat) : Int) :=
      jsParseInt2_binary hg1ne hg1b
    have hp2 : jsParseInt2 g2 = some ((binVal g2 : Nat) : Int) :=
      jsParseInt2_binary hg2ne hg2b
    have hb1 : binVal g1 < 8 := by
      have := binVal_lt hg1b
      rw [hg1l] at this
      simpa using this
    have hb2 : binVal g2 < 8 := by
      have := binVal_lt hg2b
      rw [hg2l] at this
      simpa using this
    have hrest : ∀ g ∈ rest, g.length = 3 ∧ (∀ c ∈ g, isBinChar c) :=
      fun g hgm => hg g (by simp [hgm])
    have hev' : rest.length % 2 = 0 := by
      simp only [List.length_cons] at hev
      omega
    have ih := bodyChars_roundtrip rest hrest hev'
    have hbody : bodyChars (g1 :: g2 :: rest)
        = ((KCG_CHAR_MATRIX.getD (binVal g1) []).getD (binVal g2) ' ') :: bodyChars rest := by
      unfold bodyChars
      rw [List.map_cons, List.map_cons, hp1, hp2]
      have hpair : pairUp (some ((binVal g1 : Nat) : Int)
            :: some ((binVal g2 : Nat) : Int) :: rest.map jsParseInt2)
          = (some ((binVal g1 : Nat) : Int), some ((binVal g2 : Nat) : Int))
            :: pairUp (rest.map jsParseInt2) := rfl
      rw [hpair, List.filterMap_cons]
      have hcond : (0 : Int) ≤ ((binVal g1 : Nat) : Int) ∧ ((binVal g1 : Nat) : Int) < 8
          ∧ (0 : Int) ≤ ((binVal g2 : Nat) : Int) ∧ ((binVal g2 : Nat) : Int) < 8 := by
        refine ⟨by omega, by exact_mod_cast hb1, by omega, by exact_mod_cast hb2⟩
      simp only [if_pos hcond, Int.toNat_natCast]
    rw [hbody]
    unfold initialBinaryPayload
    rw [List.flatMap_cons]
    have hidx : kcgCharIndex ((KCG_CHAR_MATRIX.getD (binVal g1) []).getD (binVal g2) ' ')
        = some (8 * binVal g1 + binVal g2) := matrix_index_fact _ hb1 _ hb2
    rw [hidx]
    have hbv : binVal (g1 ++ g2) = 8 * binVal g1 + binVal g2 := by
      rw [binVal_append, hg2l]
      ring
    have hrec : padStartList 6 '0' (natToBin (8 * binVal g1 + binVal g2)) = g1 ++ g2 := by
      rw [← hbv]
      have hlen : (g1 ++ g2).length = 6 := by
        rw [List.length_append, hg1l, hg2l]
      have hb12 : ∀ c ∈ g1 ++ g2, isBinChar c := by
        intro c hc
        rcases List.mem_append.mp hc with hc | hc
        · exact hg1b c hc
        · exact hg2b c hc
      have := padStart_natToBin_binVal (g1 ++ g2) (by omega) hb12
      rw [hlen] at this
      exact this
    have hflat : (g1 :: g2 :: rest).flatten = (g1 ++ g2) ++ rest.flatten := by
      simp
    rw [hflat, ← hrec]
    have hih : rest.flatten = initialBinaryPayload (bodyChars rest) := ih.symm
    rw [hih]
    simp only [Option.getD_some, initialBinaryPayload]

/-! ## Shape of a successful encode -/

theorem rToBinary_length_ge (x : Option Int) : 10 ≤ (rToBinary x).length := by
  cases x with
  | none =>
    simp [rToBinary, padStartList, List.length_append, List.length_replicate]
  | some e =>
    rw [rToBinary_some]
    unfold padStartList
    simp only [List.length_append, List.length_replicate]
    omega

theorem paddingZerosCount_le (len : Nat) : paddingZerosCount len ≤ 5 := by
  unfold paddingZerosCount
  omega

theorem paddingZerosCount_mod (len : Nat) : (len + paddingZerosCount len) % 6 = 0 := by
  unfold paddingZerosCount
  omega

theorem matrix_get?_fact :
    ∀ n : Nat, n < 8 → KCG_CHAR_MATRIX.get? n = some (KCG_CHAR_MATRIX.getD n []) := by
  decide

theorem matrix_row_length_fact :
    ∀ n : Nat, n < 8 → (KCG_CHAR_MATRIX.getD n []).length = 8 := by
  decide

theorem chunksOf3_ne_nil {l : List Char} (hne : l ≠ []) : chunksOf3 l ≠ [] := by
  obtain ⟨init, lst, hC, _, _, _, _⟩ := chunksOf3_structure l hne
  rw [hC]
  simp

theorem chunksOf3_mem_ne_nil {l : List Char} :
    ∀ g ∈ chunksOf3 l, g ≠ [] := by
  intro g hg
  by_cases hne : l = []
  · subst hne
    simp [chunksOf3] at hg
  · obtain ⟨init, lst, hC, _, hinit3, hl1, _⟩ := chunksOf3_structure l hne
    rw [hC] at hg
    rcases List.mem_append.mp hg with hg' | hg'
    · have := hinit3 g hg'
      intro hnil
      rw [hnil] at this
      simp at this
    · have : g = lst := by simpa using hg'
      subst this
      intro hnil
      rw [hnil] at hl1
      simp at hl1

theorem chunksOf3_all3 {l : List Char} (hne : l ≠ []) (h3 : l.length % 3 = 0) :
    ∀ g ∈ chunksOf3 l, g.length = 3 := by
  obtain ⟨init, lst, hC, hl, hinit3, hl1, hl3⟩ := chunksOf3_structure l hne
  have hlen : l.length = 3 * init.length + lst.length := by
    rw [hl]
    simp only [List.length_append]
    rw [flatten_length_three init hinit3]
  have hlst3 : lst.length = 3 := by omega
  intro g hg
  rw [hC] at hg
  rcases List.mem_append.mp hg with hg' | hg'
  · exact hinit3 g hg'
  · have : g = lst := by simpa using hg'
    subst this
    exact hlst3

theorem chunksOf3_even {l : List Char} (hne : l ≠ []) (h6 : l.length % 6 = 0) :
    (chunksOf3 l).length % 2 = 0 := by
  have h3 : l.length % 3 = 0 := by omega
  have hall := chunksOf3_all3 hne h3
  have hfl : (chunksOf3 l).flatten.length = 3 * (chunksOf3 l).length :=
    flatten_length_three _ hall
  rw [chunksOf3_flatten] at hfl
  omega

theorem encodeRValues_digits {ns : List Char} (hne : ns ≠ [])
    (hd : ∀ c ∈ ns, isDigitChar c = true) :
    encodeRValues ns
      = (chunksOf3 ns).map (fun c => some ((500 : Int) - ((decVal c : Nat) : Int))) := by
  unfold encodeRValues
  apply List.map_congr_left
  intro c hc
  have hcne : c ≠ [] := chunksOf3_mem_ne_nil c hc
  have hcd : ∀ x ∈ c, isDigitChar x = true := by
    intro x hx
    apply hd
    rw [← chunksOf3_flatten ns]
    exact List.mem_flatten.mpr ⟨c, hc, hx⟩
  rw [jsParseInt_digits hcne hcd]
  rfl

/-- Successful encodes have the exact `"KCG-" ++ header ++ body` shape, with
the header at matrix row `7 - paddingZeroCount` and column
`7 - (count of "000" groups % 8)`. -/
theorem encodeKcg_shape (cardIds : List (List Char)) (ns : List Char)
    (hok : encodeNumericString (aggregateCounts cardIds) = .ok ns) (hne : ns ≠ []) :
    encodeKcgDeckCode cardIds
      = .ok ("KCG-".toList
          ++ ((KCG_CHAR_MATRIX.getD
                (7 - paddingZerosCount ((encodeRValues ns).flatMap rToBinary).length) []).getD
              (7 - zeroGroupCount (chunksOf3 ((encodeRValues ns).flatMap rToBinary
                  ++ List.replicate
                    (paddingZerosCount ((encodeRValues ns).flatMap rToBinary).length) '0')) % 8) ' ')
            :: bodyChars (chunksOf3 ((encodeRValues ns).flatMap rToBinary
                ++ List.replicate
                  (paddingZerosCount ((encodeRValues ns).flatMap rToBinary).length) '0'))) := by
  unfold encodeKcgDeckCode
  rw [hok]
  set B := (encodeRValues ns).flatMap rToBinary with hB
  set p := paddingZerosCount B.length with hp
  have hp5 : p ≤ 5 := paddingZerosCount_le _
  have hBne : B ≠ [] := by
    have hcne : chunksOf3 ns ≠ [] := chunksOf3_ne_nil hne
    cases hcs : chunksOf3 ns with
    | nil => exact absurd hcs hcne
    | cons c t =>
      rw [hB]
      unfold encodeRValues
      rw [hcs]
      simp only [List.map_cons, List.flatMap_cons]
      intro hx
      have h10 := rToBinary_length_ge ((jsParseInt c).map (fun e => 500 - e))
      rw [List.append_eq_nil] at hx
      rw [hx.1] at h10
      simp at h10
  have hpadne : B ++ List.replicate p '0' ≠ [] := by
    intro hx
    rw [List.append_eq_nil] at hx
    exact hBne hx.1
  have hreg : regexChunks3 (B ++ List.replicate p '0')
      = some (chunksOf3 (B ++ List.replicate p '0')) := by
    unfold regexChunks3
    rw [if_neg hpadne]
  simp only [hreg]
  set z := zeroGroupCount (chunksOf3 (B ++ List.replicate p '0')) with hz
  have hz8 : z % 8 ≤ 7 := by omega
  have hsInt : ¬ ((7 - (p : Int)) < 0 ∨ 8 ≤ (7 - (p : Int))) := by omega
  rw [if_neg hsInt]
  have hsNat : ((7 : Int) - (p : Int)).toNat = 7 - p := by omega
  rw [hsNat]
  simp only [matrix_get?_fact (7 - p) (by omega)]
  have hrl : (KCG_CHAR_MATRIX.getD (7 - p) []).length = 8 :=
    matrix_row_length_fact (7 - p) (by omega)
  rw [hrl]
  have hcInt : ¬ ((7 - ((z : Int) % 8)) < 0
      ∨ ((8 : Nat) : Int) ≤ (7 - ((z : Int) % 8))) := by
    omega
  rw [if_neg hcInt]
  have hcNat : ((7 : Int) - ((z : Int) % 8)).toNat = 7 - z % 8 := by omega
  rw [hcNat]

/-! ## Decoding a successfully encoded payload -/

theorem flatten_length_const (k : Nat) :
    ∀ L : List (List Char), (∀ x ∈ L, x.length = k) → L.flatten.length = k * L.length := by
  intro L
  induction L with
  | nil => intro _; simp
  | cons x t ih =>
    intro h
    have hx : x.length = k := h x (by simp)
    simp only [List.flatten_cons, List.length_append, hx,
      ih (fun y hy => h y (by simp [hy])), List.length_cons]
    ring

theorem bodyChars_mem_charset (o : List (List Char)) :
    ∀ ch ∈ bodyChars o, kcgCharSetHas ch = true := by
  intro ch hch
  unfold bodyChars at hch
  rw [List.mem_filterMap] at hch
  obtain ⟨pq, _, hf⟩ := hch
  rcases pq with ⟨r, c⟩
  cases r with
  | none => simp at hf
  | some rv =>
    cases c with
    | none => simp at hf
    | some cv =>
      have hf' : (if (0 : Int) ≤ rv ∧ rv < 8 ∧ (0 : Int) ≤ cv ∧ cv < 8
          then some ((KCG_CHAR_MATRIX.getD rv.toNat []).getD cv.toNat ' ')
          else none) = some ch := hf
      by_cases hcond : (0 : Int) ≤ rv ∧ rv < 8 ∧ (0 : Int) ≤ cv ∧ cv < 8
      · rw [if_pos hcond] at hf'
        injection hf' with hf'
        subst hf'
        have hr8 : rv.toNat < 8 := by omega
        have hc8 : cv.toNat < 8 := by omega
        exact matrix_member_fact rv.toNat hr8 cv.toNat hc8
      · rw [if_neg hcond] at hf'
        cases hf'

theorem removePaddingBits_zero (bits : List Char) : removePaddingBits 0 bits = bits := by
  unfold removePaddingBits
  simp

/-- Decoding the exact output shape produced by a successful encode of a
clean numeric string recovers steps 7-8 applied to that string. -/
theorem decodeKcg_of_encoded (ns : List Char) (hne : ns ≠ [])
    (hd : ∀ c ∈ ns, isDigitChar c = true) (h5 : ns.length % 5 = 0) :
    decodeKcgDeckCode ("KCG-".toList
        ++ ((KCG_CHAR_MATRIX.getD
              (7 - paddingZerosCount ((encodeRValues ns).flatMap rToBinary).length) []).getD
            (7 - zeroGroupCount (chunksOf3 ((encodeRValues ns).flatMap rToBinary
                ++ List.replicate
                  (paddingZerosCount ((encodeRValues ns).flatMap rToBinary).length) '0')) % 8) ' ')
          :: bodyChars (chunksOf3 ((encodeRValues ns).flatMap rToBinary
              ++ List.replicate
                (paddingZerosCount ((encodeRValues ns).flatMap rToBinary).length) '0')))
      = .ok (expandEntries ((chunks5 ns).filterMap processTuple)) := by
  set C := chunksOf3 ns with hCdef
  set bs := C.map (fun c => rToBinary (some ((500 : Int) - ((decVal c : Nat) : Int))))
    with hbs
  have hB : (encodeRValues ns).flatMap rToBinary = bs.flatten := by
    rw [encodeRValues_digits hne hd, hbs]
    show ((C.map _).map rToBinary).flatten = _
    rw [List.map_map]
    rfl
  -- chunk digit/length facts
  have hCd : ∀ c ∈ C, ∀ x ∈ c, isDigitChar x = true := by
    intro c hc x hx
    apply hd
    rw [← chunksOf3_flatten ns, ← hCdef]
    exact List.mem_flatten.mpr ⟨c, hc, hx⟩
  have hClen : ∀ c ∈ C, 1 ≤ c.length ∧ c.length ≤ 3 := by
    obtain ⟨init, lst, hC, _, hinit3, hl1, hl3⟩ := chunksOf3_structure ns hne
    intro c hc
    rw [hCdef, hC] at hc
    rcases List.mem_append.mp hc with hc' | hc'
    · have := hinit3 c hc'
      omega
    · have : c = lst := by simpa using hc'
      subst this
      exact ⟨hl1, hl3⟩
  have hCval : ∀ c ∈ C, decVal c ≤ 999 := by
    intro c hc
    have hlt := decVal_lt (hCd c hc)
    have h3 : c.length ≤ 3 := (hClen c hc).2
    have h10 : (10 : Nat) ^ c.length ≤ 10 ^ 3 := Nat.pow_le_pow_right (by omega) h3
    have : (10 : Nat) ^ 3 = 1000 := by norm_num
    omega
  have hErange : ∀ c ∈ C, -499 ≤ (500 : Int) - ((decVal c : Nat) : Int)
      ∧ (500 : Int) - ((decVal c : Nat) : Int) ≤ 500 := by
    intro c hc
    have := hCval c hc
    omega
  have hbs10 : ∀ b ∈ bs, b.length = 10 := by
    intro b hb
    rw [hbs] at hb
    rw [List.mem_map] at hb
    obtain ⟨c, hc, rfl⟩ := hb
    exact rToBinary_length (hErange c hc).1 (hErange c hc).2
  have hbsbin : ∀ b ∈ bs, ∀ x ∈ b, isBinChar x := by
    intro b hb
    rw [hbs] at hb
    rw [List.mem_map] at hb
    obtain ⟨c, hc, rfl⟩ := hb
    rw [rToBinary_eq_padStart (hErange c hc).1 (hErange c hc).2]
    exact padStartList_chars (natToBin_chars _)
  rw [hB]
  set B := bs.flatten with hBdef
  set p := paddingZerosCount B.length with hpdef
  have hp5 : p ≤ 5 := paddingZerosCount_le _
  have hBlen : B.length = 10 * bs.length := flatten_length_const 10 bs hbs10
  have hCne : C ≠ [] := chunksOf3_ne_nil hne
  have hbsne : bs ≠ [] := by
    rw [hbs]
    intro hx
    rw [List.map_eq_nil_iff] at hx
    exact hCne hx
  have hBpos : 10 ≤ B.length := by
    rw [hBlen]
    cases hb : bs with
    | nil => exact absurd hb hbsne
    | cons x t => simp [List.length_cons]
  set padded := B ++ List.replicate p '0' with hpadded
  have hpadlen : padded.length = B.length + p := by
    rw [hpadded]
    simp [List.length_append, List.length_replicate]
  have hpadmod : padded.length % 6 = 0 := by
    rw [hpadlen, hpdef]
    exact paddingZerosCount_mod _
  have hpadne : padded ≠ [] := by
    intro hx
    have hlen0 : padded.length = 0 := by rw [hx]; rfl
    rw [hpadlen] at hlen0
    omega
  have hpadbin : ∀ x ∈ padded, isBinChar x := by
    intro x hx
    rw [hpadded] at hx
    rcases List.mem_append.mp hx with hx' | hx'
    · rw [hBdef] at hx'
      rw [List.mem_flatten] at hx'
      obtain ⟨b, hb, hxb⟩ := hx'
      exact hbsbin b hb x hxb
    · have := List.eq_of_mem_replicate hx'
      exact Or.inl this
  set o := chunksOf3 padded with ho
  have ho3 : ∀ g ∈ o, g.length = 3 := chunksOf3_all3 hpadne (by omega)
  have hobin : ∀ g ∈ o, ∀ x ∈ g, isBinChar x := by
    intro g hg x hx
    apply hpadbin
    rw [← chunksOf3_flatten padded, ← ho]
    exact List.mem_flatten.mpr ⟨g, hg, hx⟩
  have hoflat : o.flatten = padded := by
    rw [ho]
    exact chunksOf3_flatten padded
  have hoeven : o.length % 2 = 0 := chunksOf3_even hpadne hpadmod
  set z := zeroGroupCount o with hz
  set head := (KCG_CHAR_MATRIX.getD (7 - p) []).getD (7 - z % 8) ' ' with hhead
  have hr8 : 7 - p < 8 := by omega
  have hc8 : 7 - z % 8 < 8 := by omega
  -- the structural checks all pass
  unfold decodeKcgDeckCode
  rw [if_neg (by
    rw [show ("KCG-".toList ++ head :: bodyChars o).take 4
        = ("KCG-".toList ++ head :: bodyChars o).take ("KCG-".toList).length from rfl,
      List.take_left]
    simp)]
  rw [show ("KCG-".toList ++ head :: bodyChars o).drop 4
      = ("KCG-".toList ++ head :: bodyChars o).drop ("KCG-".toList).length from rfl,
    List.drop_left]
  rw [if_neg (by simp)]
  have hfind : (head :: bodyChars o).find? (fun c => ¬ kcgCharSetHas c) = none := by
    rw [List.find?_eq_none]
    intro x hx
    rcases List.mem_cons.mp hx with hx' | hx'
    · subst hx'
      simp [matrix_member_fact (7 - p) hr8 (7 - z % 8) hc8]
    · simp [bodyChars_mem_charset o x hx']
  rw [hfind]
  -- the numeric string round-trips
  have hfinal : kcgFinalNumericString (head :: bodyChars o) = ns := by
    have hshow : kcgFinalNumericString (head :: bodyChars o)
        = (adjustedString ((chunks10 (removePaddingBits
            (charsToRemoveFromPayloadEnd head)
            (initialBinaryPayload (bodyChars o)))).flatMap decodeTenBitChunk)).map
            (fun c => if c = 'X' then '0' else c) := rfl
    rw [hshow]
    have hrem : charsToRemoveFromPayloadEnd head
        = if 7 - z % 8 = 7 then 0 else p := by
      rw [hhead, matrix_remove_fact (7 - p) hr8 (7 - z % 8) hc8]
      by_cases hcol : 7 - z % 8 = 7
      · rw [if_pos hcol, if_pos hcol]
      · rw [if_neg hcol, if_neg hcol]
        omega
    rw [hrem]
    have hinit : initialBinaryPayload (bodyChars o) = padded := by
      rw [bodyChars_roundtrip o (fun g hg => ⟨ho3 g hg, hobin g hg⟩) hoeven, hoflat]
    rw [hinit]
    have hproc : ∀ k : Nat, (k = 0 ∨ k = p) →
        chunks10 (removePaddingBits k padded) = bs := by
      intro k hk
      rcases hk with hk | hk
      · subst hk
        rw [removePaddingBits_zero, hpadded, hBdef]
        exact chunks10_flatten_extra bs hbs10 _ (by simp [List.length_replicate]; omega)
      · subst hk
        by_cases hp0 : p = 0
        · rw [hp0, removePaddingBits_zero, hpadded, hBdef]
          exact chunks10_flatten_extra bs hbs10 _ (by simp [List.length_replicate]; omega)
        · unfold removePaddingBits
          rw [if_pos ⟨by omega, by rw [hpadlen]; omega⟩]
          have htake : padded.take (padded.length - p) = B := by
            rw [hpadlen]
            have : B.length + p - p = B.length := by omega
            rw [this, hpadded]
            exact List.take_left B (List.replicate p '0')
          rw [htake, hBdef]
          have : bs.flatten = bs.flatten ++ [] := by simp
          rw [this]
          exact chunks10_flatten_extra bs hbs10 [] (by simp)
    have hchunks : chunks10 (removePaddingBits
        (if 7 - z % 8 = 7 then 0 else p) padded) = bs := by
      by_cases hcol : 7 - z % 8 = 7
      · rw [if_pos hcol]
        exact hproc 0 (Or.inl rfl)
      · rw [if_neg hcol]
        exact hproc p (Or.inr rfl)
    rw [hchunks]
    have hinter : bs.flatMap decodeTenBitChunk
        = (C.map (fun c => decodeTenBitChunk
            (rToBinary (some ((500 : Int) - ((decVal c : Nat) : Int)))))).flatten := by
      rw [hbs]
      show ((C.map _).map decodeTenBitChunk).flatten = _
      rw [List.map_map]
      rfl
    rw [hinter]
    exact intermediate_roundtrip ns hne hd h5
  rw [hfinal, if_neg (by omega)]

/-! ## Canonical card identifiers and the per-entry tuple codec -/

/-- The canonical identifier string `exp ++ t ++ "-" ++ digits of n`. -/
def mkCardId (exp : List Char) (t : Char) (n : Nat) : List Char :=
  exp ++ t :: '-' :: natDigits n

/-- Parsed numeric value of an `O` table entry. -/
def vOf (pr : List Char × List Char) : Nat := ((jsParseInt pr.2).getD 0).toNat

/-- The expansion string selected from a per-character table slot (the
`'e' ↦ "ex"`, `'p' ↦ "prm"` special cases of step 7). -/
def expansionOfChar (c : Char) : List Char :=
  if c = 'e' then ['e', 'x'] else if c = 'p' then ['p', 'r', 'm'] else [c]

/-- The type letter reconstructed from `c2` (step 7's switch). -/
def typeCharOf (d : Nat) : Char :=
  if d = 1 then 'A' else if d = 2 then 'S' else if d = 3 then 'M' else 'D'

/-- The finite facts about the `O` expansion table needed by the round trip. -/
theorem oTableFact :
    ∀ pr ∈ O_TABLE,
      jsParseInt pr.2 = some ((vOf pr : Nat) : Int) ∧
      vOf pr ≤ 19 ∧
      ('-' ∉ pr.1) ∧
      (vOf pr < 10 → pr.2 = [digitChar (vOf pr)]) ∧
      expansionOfChar ((if vOf pr < 10 then MAP1_EXPANSION
          else MAP2_EXPANSION).getD (vOf pr % 10) ' ') = pr.1 := by
  decide

/-- `find?` on an association list with a present key. -/
theorem find?_key (l : List (List Char × List Char)) (k : List Char)
    (hk : k ∈ l.map Prod.fst) :
    ∃ pr, l.find? (fun e => e.1 = k) = some pr ∧ pr.1 = k ∧ pr ∈ l := by
  induction l with
  | nil => simp at hk
  | cons a t ih =>
    by_cases ha : a.1 = k
    · refine ⟨a, ?_, ha, by simp⟩
      rw [List.find?_cons]
      simp [ha]
    · rw [List.map_cons] at hk
      rcases List.mem_cons.mp hk with hk' | hk'
      · exact absurd hk'.symm ha
      · obtain ⟨pr, h1, h2, h3⟩ := ih hk'
        refine ⟨pr, ?_, h2, by simp [h3]⟩
        rw [List.find?_cons]
        simp [ha, h1]

theorem findIdx_dash (exp : List Char) (hexp : '-' ∉ exp) (t : Char) (ht : t ≠ '-')
    (ds : List Char) :
    (exp ++ t :: '-' :: ds).findIdx? (fun c => c = '-') = some (exp.length + 1) := by
  have haux : ∀ (l : List Char), '-' ∉ l → ∀ i : Nat,
      List.findIdx? (fun c => decide (c = '-')) (l ++ t :: '-' :: ds) i
        = some (i + l.length + 1) := by
    intro l
    induction l with
    | nil =>
      intro _ i
      rw [List.nil_append, List.findIdx?_cons]
      rw [if_neg (by simp [ht])]
      rw [List.findIdx?_cons, if_pos (by simp)]
      simp
    | cons c rest ih =>
      intro hnm i
      have hc : c ≠ '-' := by
        intro hx
        exact hnm (by simp [hx])
      rw [List.cons_append, List.findIdx?_cons, if_neg (by simp [hc])]
      rw [ih (fun hx => hnm (by simp [hx])) (i + 1)]
      congr 1
      simp [List.length_cons]
      omega
  have := haux exp hexp 0
  simpa using this

theorem take_mkCardId (exp : List Char) (t : Char) (ds : List Char) :
    (exp ++ t :: '-' :: ds).take (exp.length + 1) = exp ++ [t] := by
  have hx : exp ++ t :: '-' :: ds = (exp ++ [t]) ++ '-' :: ds := by simp
  have hl : exp.length + 1 = (exp ++ [t]).length := by simp
  rw [hx, hl]
  exact List.take_left _ _

theorem drop_mkCardId (exp : List Char) (t : Char) (ds : List Char) :
    (exp ++ t :: '-' :: ds).drop (exp.length + 1 + 1) = ds := by
  have hx : exp ++ t :: '-' :: ds = (exp ++ [t, '-']) ++ ds := by simp
  have hl : exp.length + 1 + 1 = (exp ++ [t, '-']).length := by simp
  rw [hx, hl]
  exact List.drop_left _ _

theorem typeSlice (exp : List Char) (t : Char) :
    (exp ++ [t]).drop ((exp ++ [t]).length - 1) = [t] := by
  have hl : (exp ++ [t]).length - 1 = exp.length := by simp
  rw [hl]
  exact List.drop_left _ _

/-- The `F` zero-padding lookup combined with the raw fallback always yields
the 2-digit form for canonical numbers in `[1, 50]`. -/
theorem c3c4_eq (n : Nat) (h1 : 1 ≤ n) (h50 : n ≤ 50) :
    fLookup (natDigits n) = [digitChar (n / 10), digitChar (n % 10)] := by
  interval_cases n <;> decide

/-- Step-7 tuple processing on an all-digit 5-tuple, in closed form. -/
theorem processTuple_digits (d1 d2 d3 d4 d5 : Nat) (h1 : d1 < 10) (h2 : d2 < 10)
    (h3 : d3 < 10) (h4 : d4 < 10) (h5 : d5 < 10) :
    processTuple [digitChar d1, digitChar d2, digitChar d3, digitChar d4, digitChar d5]
      = if d5 = 0 ∨ d5 = 5 then none
        else if d2 = 0 ∨ 5 ≤ d2 then none
        else if d3 * 10 + d4 < 1 ∨ 50 < d3 * 10 + d4 then none
        else some (expansionOfChar ((if d5 ≤ 4 then MAP1_EXPANSION
            else MAP2_EXPANSION).getD d1 ' ')
          ++ typeCharOf d2 :: '-' :: natDigits (d3 * 10 + d4), d5) := by
  unfold processTuple
  simp only [List.getD_cons_zero, List.getD_cons_succ,
    parseIntChar_digitChar h1, parseIntChar_digitChar h2, parseIntChar_digitChar h3,
    parseIntChar_digitChar h4, parseIntChar_digitChar h5]
  have hm1 : ¬ (MAP1_EXPANSION.length ≤ d1) := by
    rw [show MAP1_EXPANSION.length = 10 from rfl]
    omega
  have hm2 : ¬ (MAP2_EXPANSION.length ≤ d1) := by
    rw [show MAP2_EXPANSION.length = 10 from rfl]
    omega
  interval_cases d5 <;> interval_cases d2 <;>
    simp [expansionOfChar, typeCharOf, hm1, hm2]

/-- The `c2` digit of a type letter. -/
def typeDigitOf (t : Char) : Nat :=
  if t = 'A' then 1 else if t = 'S' then 2 else if t = 'M' then 3 else 4

/-- One encode-loop iteration on a canonical identifier produces a 5-digit
tuple that step 7 decodes back to exactly that identifier, with the
original count recoverable as `c5 % 5`. -/
theorem encodeEntry_roundtrip (exp : List Char) (t : Char) (n count : Nat)
    (hexp : exp ∈ O_TABLE.map Prod.fst)
    (ht : t = 'A' ∨ t = 'S' ∨ t = 'M' ∨ t = 'D')
    (hn1 : 1 ≤ n) (hn50 : n ≤ 50) (hc1 : 1 ≤ count) (hc4 : count ≤ 4) :
    ∃ tup : List Char,
      encodeEntry (mkCardId exp t n) count = .ok tup ∧
      tup.length = 5 ∧ (∀ c ∈ tup, isDigitChar c = true) ∧
      ∃ c5v : Nat, processTuple tup = some (mkCardId exp t n, c5v) ∧ c5v % 5 = count := by
  obtain ⟨pr, hfind, hpr1, hprm⟩ := find?_key O_TABLE exp hexp
  have holk : oLookup exp = some pr.2 := by
    unfold oLookup
    rw [hfind]
  obtain ⟨hparse, hv19, hdash, hlow, hrecon⟩ := oTableFact pr hprm
  have hdash' : '-' ∉ exp := hpr1 ▸ hdash
  have htne : t ≠ '-' := by rcases ht with h | h | h | h <;> subst h <;> decide
  have hDfact : D_TABLE.find? (fun e => e.1 = [t])
      = some ([t], [digitChar (typeDigitOf t)]) := by
    rcases ht with h | h | h | h <;> subst h <;> rfl
  have htc : typeCharOf (typeDigitOf t) = t := by
    rcases ht with h | h | h | h <;> subst h <;> rfl
  have htd1 : 1 ≤ typeDigitOf t := by
    rcases ht with h | h | h | h <;> subst h <;> decide
  have htd4 : typeDigitOf t ≤ 4 := by
    rcases ht with h | h | h | h <;> subst h <;> decide
  have hfd := findIdx_dash exp hdash' t htne (natDigits n)
  set v := vOf pr with hv
  have hd3 : n / 10 < 10 := by omega
  have hd4 : n % 10 < 10 := by omega
  have hn' : n / 10 * 10 + n % 10 = n := by omega
  -- the common c3c4 rendering
  have h34 := c3c4_eq n hn1 hn50
  by_cases hvlow : v < 10
  · -- low table: c1 is the table string itself, c5 = count
    have hc1s : pr.2 = [digitChar v] := hlow hvlow
    have hio : ¬ ((10 : Int) ≤ ((v : Nat) : Int)) := by
      intro hx
      have : (10 : Nat) ≤ v := by exact_mod_cast hx
      omega
    have henc : encodeEntry (mkCardId exp t n) count
        = .ok [digitChar v, digitChar (typeDigitOf t),
            digitChar (n / 10), digitChar (n % 10), digitChar count] := by
      unfold mkCardId
      simp only [encodeEntry, hfd, take_mkCardId, drop_mkCardId, List.dropLast_concat,
        typeSlice, holk, hparse, Option.getD_some, hDfact, h34]
      rw [if_neg (by omega)]
      simp only [decide_eq_true_eq]
      rw [if_neg hio, if_neg hio, hc1s]
      rw [natDigits_small (by omega : count < 10)]
      simp
    refine ⟨_, henc, by simp, ?_, count, ?_, by omega⟩
    · intro c hc
      simp only [List.mem_cons, List.not_mem_nil, or_false] at hc
      rcases hc with h | h | h | h | h <;> subst h <;>
        exact isDigitChar_digitChar (by omega)
    · have hpt := processTuple_digits v (typeDigitOf t) (n / 10) (n % 10) count
        (by omega) (by omega) hd3 hd4 (by omega)
      rw [hpt, if_neg (by omega), if_neg (by omega), if_neg (by omega)]
      rw [hn', htc]
      have hv10 : v % 10 = v := by omega
      have hrec' := hrecon
      rw [if_pos hvlow, hv10] at hrec'
      rw [if_pos (by omega : count ≤ 4), hrec', hpr1]
      rfl
  · -- high table: c1 is the parsed value minus 10, c5 = count + 5
    have hio : ((10 : Int) ≤ ((v : Nat) : Int)) := by
      exact_mod_cast (by omega : (10 : Nat) ≤ v)
    have hc1v : intToString (((v : Nat) : Int) - 10) = [digitChar (v % 10)] := by
      have hx : ((v : Nat) : Int) - 10 = (((v - 10 : Nat) : Nat) : Int) := by omega
      rw [hx, intToString_ofNat, natDigits_small (by omega)]
      have hvm : v - 10 = v % 10 := by omega
      rw [hvm]
    have henc : encodeEntry (mkCardId exp t n) count
        = .ok [digitChar (v % 10), digitChar (typeDigitOf t),
            digitChar (n / 10), digitChar (n % 10), digitChar (count + 5)] := by
      unfold mkCardId
      simp only [encodeEntry, hfd, take_mkCardId, drop_mkCardId, List.dropLast_concat,
        typeSlice, holk, hparse, Option.getD_some, hDfact, h34]
      rw [if_neg (by omega)]
      simp only [decide_eq_true_eq]
      rw [if_pos hio, if_pos hio, hc1v]
      rw [natDigits_small (by omega : count + 5 < 10)]
      simp
    refine ⟨_, henc, by simp, ?_, count + 5, ?_, by omega⟩
    · intro c hc
      simp only [List.mem_cons, List.not_mem_nil, or_false] at hc
      rcases hc with h | h | h | h | h <;> subst h <;>
        exact isDigitChar_digitChar (by omega)
    · have hpt := processTuple_digits (v % 10) (typeDigitOf t) (n / 10) (n % 10) (count + 5)
        (by omega) (by omega) hd3 hd4 (by omega)
      rw [hpt, if_neg (by omega), if_neg (by omega), if_neg (by omega)]
      rw [hn', htc]
      have hrec' := hrecon
      rw [if_neg hvlow] at hrec'
      rw [if_neg (by omega : ¬ (count + 5 ≤ 4)), hrec', hpr1]
      rfl

/-! ## The whole encode loop on canonical entries, and aggregation -/

/-- `expand(counts)`: the flat occurrence list of a counted-entry set. -/
def expandCounts (cs : List (List Char × Nat)) : List (List Char) :=
  cs.flatMap (fun e => List.replicate e.2 e.1)

/-- The canonical-entry hypothesis of the compact round trip: identifier of
table-expansion + type-letter + canonical number in `[1,50]`, count in
`[1,4]`. -/
def canonicalEntry (e : List Char × Nat) : Prop :=
  ∃ exp t n, e.1 = mkCardId exp t n ∧ exp ∈ O_TABLE.map Prod.fst ∧
    (t = 'A' ∨ t = 'S' ∨ t = 'M' ∨ t = 'D') ∧
    1 ≤ n ∧ n ≤ 50 ∧ 1 ≤ e.2 ∧ e.2 ≤ 4

theorem encodeNumericString_canonical :
    ∀ cs : List (List Char × Nat), (∀ e ∈ cs, canonicalEntry e) →
      ∃ tups : List (List Char),
        encodeNumericString cs = .ok tups.flatten ∧
        (∀ t ∈ tups, t.length = 5 ∧ ∀ c ∈ t, isDigitChar c = true) ∧
        tups.length = cs.length ∧
        expandEntries (tups.filterMap processTuple) = expandCounts cs := by
  intro cs
  induction cs with
  | nil =>
    intro _
    exact ⟨[], rfl, by simp, rfl, rfl⟩
  | cons e rest ih =>
    intro hval
    obtain ⟨exp, t, n, hid, hexp, ht, hn1, hn50, hc1, hc4⟩ := hval e (by simp)
    obtain ⟨tups, hok, htl, hlen, hexp'⟩ := ih (fun x hx => hval x (by simp [hx]))
    obtain ⟨tup, henc, htlen, htd, c5v, hproc, hc5⟩ :=
      encodeEntry_roundtrip exp t n e.2 hexp ht hn1 hn50 hc1 hc4
    rw [← hid] at henc hproc
    refine ⟨tup :: tups, ?_, ?_, by simp [hlen], ?_⟩
    · show encodeNumericString ((e.1, e.2) :: rest) = _
      unfold encodeNumericString
      rw [henc, hok]
      rfl
    · intro x hx
      rcases List.mem_cons.mp hx with hx' | hx'
      · subst hx'
        exact ⟨htlen, htd⟩
      · exact htl x hx'
    · rw [List.filterMap_cons, hproc]
      unfold expandEntries expandCounts
      rw [List.flatMap_cons, List.flatMap_cons]
      unfold expandEntries at hexp'
      unfold expandCounts at hexp'
      rw [hexp', hc5]

theorem bumpCount_new (acc : List (List Char × Nat)) (a : List Char)
    (hnp : a ≠ ("__proto__").toList)
    (hnm : ∀ e ∈ acc, e.1 ≠ a) : bumpCount acc a = acc ++ [(a, 1)] := by
  unfold bumpCount
  rw [if_neg hnp, if_neg]
  intro hx
  rw [List.any_eq_true] at hx
  obtain ⟨e, he, hea⟩ := hx
  exact hnm e he (by simpa using hea)

theorem bumpCount_last (acc : List (List Char × Nat)) (a : List Char) (j : Nat)
    (hnp : a ≠ ("__proto__").toList)
    (hnm : ∀ e ∈ acc, e.1 ≠ a) :
    bumpCount (acc ++ [(a, j)]) a = acc ++ [(a, j + 1)] := by
  unfold bumpCount
  rw [if_neg hnp, if_pos]
  · rw [List.map_append]
    congr 1
    · have h : List.map (fun e => if e.1 = a then (e.1, e.2 + 1) else e) acc
          = List.map id acc := by
        apply List.map_congr_left
        intro e he
        rw [if_neg (hnm e he)]
        rfl
      rw [h, List.map_id]
    · simp
  · rw [List.any_eq_true]
    exact ⟨(a, j), by simp, by simp⟩

theorem foldl_bump_replicate (a : List Char) (hnp : a ≠ ("__proto__").toList) :
    ∀ k : Nat, ∀ acc : List (List Char × Nat), ∀ j : Nat,
      (∀ e ∈ acc, e.1 ≠ a) →
      List.foldl bumpCount (acc ++ [(a, j)]) (List.replicate k a) = acc ++ [(a, j + k)] := by
  intro k
  induction k with
  | zero => intro acc j _; simp
  | succ k ih =>
    intro acc j hnm
    rw [List.replicate_succ, List.foldl_cons, bumpCount_last acc a j hnp hnm,
      ih acc (j + 1) hnm]
    have h : j + 1 + k = j + (k + 1) := by omega
    rw [h]

theorem foldl_bump_expand :
    ∀ cs : List (List Char × Nat), ∀ acc : List (List Char × Nat),
      (cs.map Prod.fst).Nodup → (∀ e ∈ cs, 1 ≤ e.2) →
      (∀ e ∈ cs, e.1 ≠ ("__proto__").toList) →
      (∀ e ∈ acc, ∀ e' ∈ cs, e.1 ≠ e'.1) →
      List.foldl bumpCount acc (expandCounts cs) = acc ++ cs := by
  intro cs
  induction cs with
  | nil => intro acc _ _ _ _; simp [expandCounts]
  | cons e rest ih =>
    intro acc hnd hpos hnp hdisj
    have hnpe : e.1 ≠ ("__proto__").toList := hnp e (by simp)
    have hnd' : (rest.map Prod.fst).Nodup := by
      rw [List.map_cons, List.nodup_cons] at hnd
      exact hnd.2
    have hnotin : e.1 ∉ rest.map Prod.fst := by
      rw [List.map_cons, List.nodup_cons] at hnd
      exact hnd.1
    have hc1 : 1 ≤ e.2 := hpos e (by simp)
    have hrep : List.replicate e.2 e.1 = e.1 :: List.replicate (e.2 - 1) e.1 := by
      conv_lhs => rw [show e.2 = (e.2 - 1) + 1 by omega]
      rw [List.replicate_succ]
    have hdacc : ∀ x ∈ acc, x.1 ≠ e.1 := fun x hx => hdisj x hx e (by simp)
    have hexpand : expandCounts (e :: rest) =
        List.replicate e.2 e.1 ++ expandCounts rest := by
      unfold expandCounts
      rw [List.flatMap_cons]
    have hdisj2 : ∀ x ∈ acc ++ [e], ∀ e' ∈ rest, x.1 ≠ e'.1 := by
      intro x hx e' he'
      rcases List.mem_append.mp hx with hx' | hx'
      · exact hdisj x hx' e' (by simp [he'])
      · have hxe : x = e := by simpa using hx'
        subst hxe
        intro hcon
        exact hnotin (by rw [hcon]; exact List.mem_map_of_mem Prod.fst he')
    rw [hexpand, List.foldl_append, hrep, List.foldl_cons,
      bumpCount_new acc e.1 hnpe hdacc,
      foldl_bump_replicate e.1 hnpe (e.2 - 1) acc 1 hdacc]
    have h12 : 1 + (e.2 - 1) = e.2 := by omega
    rw [h12]
    have hpair : (e.1, e.2) = e := rfl
    rw [hpair, ih (acc ++ [e]) hnd' (fun x hx => hpos x (by simp [hx]))
      (fun x hx => hnp x (by simp [hx])) hdisj2,
      List.append_assoc]
    rfl

theorem flatten_length_five :
    ∀ L : List (List Char), (∀ x ∈ L, x.length = 5) → L.flatten.length = 5 * L.length := by
  intro L
  induction L with
  | nil => intro _; rfl
  | cons x rest ih =>
    intro hx
    simp only [List.flatten_cons, List.length_append, hx x (by simp),
      ih (fun y hy => hx y (by simp [hy])), List.length_cons]
    ring

/-- Aggregating the expansion of a counted-entry set with distinct keys and
positive counts recovers the set. -/
theorem aggregateCounts_expandCounts (cs : List (List Char × Nat))
    (hnd : (cs.map Prod.fst).Nodup) (hpos : ∀ e ∈ cs, 1 ≤ e.2)
    (hnp : ∀ e ∈ cs, e.1 ≠ ("__proto__").toList) :
    aggregateCounts (expandCounts cs) = cs := by
  unfold aggregateCounts
  have := foldl_bump_expand cs [] hnd hpos hnp (by simp)
  simpa using this

/-! ## Claim C1 -/

/-- C1 (corrected): the compact round trip holds only on the *canonical*
counted-entry sets, not on every grammar-valid one. For every non-empty
counted-entry set with pairwise-distinct identifiers in which every
identifier is `expansion ++ type ++ "-" ++ number` with the expansion a key
of the lookup table (`ex`, `prm`, or one of `A`..`R`), the type one of
`A/S/M/D`, the number written canonically (no leading zeros) in `[1,50]`,
and every count lies in `[1,4]`, encoding the expanded occurrence list
succeeds, decoding the code succeeds, and re-aggregating the decoded
occurrence list recovers exactly the original counted-entry set. The
grammar `^([A-Z]|ex|prm)(A|S|M|D)-\d+$` of the original claim is not
sufficient: it admits expansions such as `S` that are not in the lookup
tables (encode throws, see the counterexample) and numbers with leading
zeros that do not survive the trip. -/
theorem c1_compact_roundtrip (cs : List (List Char × Nat))
    (hne : cs ≠ [])
    (hnd : (cs.map Prod.fst).Nodup)
    (hval : ∀ e ∈ cs, canonicalEntry e) :
    ∃ code ids,
      encodeKcgDeckCode (expandCounts cs) = .ok code ∧
      decodeKcgDeckCode code = .ok ids ∧
      aggregateCounts ids = cs := by
  have hpos : ∀ e ∈ cs, 1 ≤ e.2 := by
    intro e he
    obtain ⟨_, _, _, _, _, _, _, _, hc1, _⟩ := hval e he
    exact hc1
  have hnp : ∀ e ∈ cs, e.1 ≠ ("__proto__").toList := by
    intro e he hcon
    obtain ⟨exp, t, n, hid, _⟩ := hval e he
    have hdm : '-' ∈ e.1 := by
      rw [hid]
      unfold mkCardId
      exact List.mem_append_right exp
        (List.mem_cons_of_mem t (List.mem_cons_self '-' _))
    rw [hcon] at hdm
    exact absurd hdm (by decide)
  have hagg : aggregateCounts (expandCounts cs) = cs :=
    aggregateCounts_expandCounts cs hnd hpos hnp
  obtain ⟨tups, hok, htl, hlen, hexp⟩ := encodeNumericString_canonical cs hval
  have hok' : encodeNumericString (aggregateCounts (expandCounts cs))
      = .ok tups.flatten := by rw [hagg]; exact hok
  have htlens : ∀ t ∈ tups, t.length = 5 := fun t ht => (htl t ht).1
  have hflen : tups.flatten.length = 5 * tups.length := flatten_length_five tups htlens
  have htne : tups ≠ [] := by
    intro h
    apply hne
    rw [h] at hlen
    simp only [List.length_nil] at hlen
    exact List.eq_nil_of_length_eq_zero hlen.symm
  have hnsne : tups.flatten ≠ [] := by
    intro h
    apply htne
    have := congrArg List.length h
    rw [hflen] at this
    simp only [List.length_nil] at this
    exact List.eq_nil_of_length_eq_zero (by omega)
  have hnsd : ∀ c ∈ tups.flatten, isDigitChar c = true := by
    intro c hc
    obtain ⟨t, ht, hct⟩ := List.mem_flatten.mp hc
    exact (htl t ht).2 c hct
  have hns5 : tups.flatten.length % 5 = 0 := by rw [hflen]; omega
  have hshape := encodeKcg_shape (expandCounts cs) tups.flatten hok' hnsne
  have hdec := decodeKcg_of_encoded tups.flatten hnsne hnsd hns5
  rw [chunks5_flatten tups htlens, hexp] at hdec
  exact ⟨_, expandCounts cs, hshape, hdec, hagg⟩

/-- C1 counterexample to the claim as stated: the counted-entry set
`[("SA-1", 1)]` meets every hypothesis of the original claim — the
identifier matches `^([A-Z]|ex|prm)(A|S|M|D)-\d+$` (expansion `S`, type
`A`), its number field is `1 ∈ [1,50]`, and the count is `1 ∈ [1,4]` — yet
encoding its expanded occurrence list throws a `generation` error (`S` is
not a key of the expansion table), so the round trip does not return the
original counts. -/
theorem c1_compact_roundtrip_counterexample :
    (∀ e ∈ [((("SA-1").toList), 1)],
        cardIdRegexTest e.1 = true ∧ 1 ≤ e.2 ∧ e.2 ≤ 4) ∧
    decVal ((("SA-1").toList).drop 3) = 1 ∧
    encodeKcgDeckCode (expandCounts [((("SA-1").toList), 1)])
      = .error ⟨.generation, ("未知のエキスパンションです: S").toList⟩ := by
  refine ⟨?_, by decide, by rfl⟩
  intro e he
  simp only [List.mem_singleton] at he
  subst he
  exact ⟨by decide, by decide, by decide⟩

theorem c1_compact_roundtrip_witness :
    ∃ code ids,
      encodeKcgDeckCode (expandCounts [((("exA-1").toList), 2)]) = .ok code ∧
      decodeKcgDeckCode code = .ok ids ∧
      aggregateCounts ids = [((("exA-1").toList), 2)] := by
  apply c1_compact_roundtrip
  · decide
  · decide
  · intro e he
    simp only [List.mem_singleton] at he
    subst he
    exact ⟨("ex").toList, 'A', 1, by decide, by decide, by decide, by decide,
      by decide, by decide, by decide⟩

/-! ## Claim C5 -/

/-- C5: header-symbol correctness.  Every successful encode is the literal
`"KCG-"`, one header symbol and the body symbols, the header being the
matrix entry at row `7 - paddingZeroCount` and column
`7 - (count of "000" 3-bit groups mod 8)`; and on decode the end-trim count
computed from a header with alphabet index `i` is
`headIndex1Based = i + 1`, `0` when `headIndex1Based % 8 = 0` and
`8 - (headIndex1Based / 8 + 1)` otherwise. -/
theorem c5_header_symbol (cardIds : List (List Char)) (ns : List Char)
    (hok : encodeNumericString (aggregateCounts cardIds) = .ok ns) (hne : ns ≠ [])
    (hc : Char) (i : Nat) (hi : kcgCharIndex hc = some i) :
    encodeKcgDeckCode cardIds
      = .ok ("KCG-".toList
          ++ ((KCG_CHAR_MATRIX.getD
                (7 - paddingZerosCount ((encodeRValues ns).flatMap rToBinary).length) []).getD
              (7 - zeroGroupCount (chunksOf3 ((encodeRValues ns).flatMap rToBinary
                  ++ List.replicate
                    (paddingZerosCount ((encodeRValues ns).flatMap rToBinary).length) '0')) % 8) ' ')
            :: bodyChars (chunksOf3 ((encodeRValues ns).flatMap rToBinary
                ++ List.replicate
                  (paddingZerosCount ((encodeRValues ns).flatMap rToBinary).length) '0'))) ∧
    charsToRemoveFromPayloadEnd hc
      = if (i + 1) % 8 = 0 then 0 else 8 - ((i + 1) / 8 + 1) := by
  constructor
  · exact encodeKcg_shape cardIds ns hok hne
  · unfold charsToRemoveFromPayloadEnd
    simp only [hi]

theorem c5_header_symbol_witness :
    encodeKcgDeckCode [(("exA-1").toList)] = .ok (("KCG-zzNXC").toList) ∧
    charsToRemoveFromPayloadEnd 'A' = 7 := by
  have h := c5_header_symbol [(("exA-1").toList)] (("01011").toList) rfl
    (by decide) 'A' 0 (by decide)
  refine ⟨?_, ?_⟩
  · rw [h.1]
    rfl
  · rw [h.2]
    decide

/-! ## Claim C2 -/

/-- C2 (corrected): there is no silent drop of a malformed token.
`SlashDeckCodeSchema` checks *every* slash-separated token against
`CARD_ID_REGEX`, so for any input that passes the structural delimiter
checks (non-empty after trimming, within the maximum length, no leading or
trailing `/`, no `//`) but contains even one token that fails the grammar,
`decodeDeckCode` aborts the whole decode with the `validation` error
「無効なカードIDが含まれます」— it does not drop the token and aggregate
the rest. -/
theorem c2_malformed_token_aborts (code : List Char) (cards : List Card)
    (h1 : jsTrim code ≠ [])
    (h2 : (jsTrim code).length ≤ MAX_DECK_CODE_LENGTH)
    (h3 : ¬ ((jsTrim code).headD ' ' = '/' ∨ (jsTrim code).getLast?.getD ' ' = '/'))
    (h4 : hasDoubleSlash (jsTrim code) = false)
    (h5 : ¬ ((jsTrim code).splitOn '/').all (fun tok => cardIdRegexTest (jsTrim tok))) :
    decodeDeckCode code cards
      = .error ⟨.validation, ("無効なカードIDが含まれます").toList⟩ := by
  have hlen : ¬ MAX_DECK_CODE_LENGTH < (jsTrim code).length := by omega
  have hdd : ¬ (hasDoubleSlash (jsTrim code) = true) := by simp [h4]
  have hs : slashDeckCodeParse code = .error ("無効なカードIDが含まれます").toList := by
    simp only [slashDeckCodeParse]
    rw [if_neg h1, if_neg hlen, if_neg h3, if_neg hdd, if_pos h5]
  unfold decodeDeckCode
  simp only [hs]

/-- C2 counterexample to the claim as stated: with `AA-1` grammar-valid and
`ZZZ-9` grammar-invalid, `decodeDeckCode "AA-1/ZZZ-9/AA-1"` fails wholesale
with the `validation` error instead of returning the aggregation of the two
`AA-1` occurrences; the claim's own literal example
`decodeDeckCode "A-1/ZZZ-9/A-1"` fails the same way (its `A-1` is not even
grammar-valid: the regex requires an expansion letter before the type
letter). -/
theorem c2_malformed_token_aborts_counterexample :
    cardIdRegexTest (("AA-1").toList) = true ∧
    cardIdRegexTest (("ZZZ-9").toList) = false ∧
    cardIdRegexTest (("A-1").toList) = false ∧
    decodeDeckCode (("AA-1/ZZZ-9/AA-1").toList) [⟨("AA-1").toList⟩]
      = .error ⟨.validation, ("無効なカードIDが含まれます").toList⟩ ∧
    decodeDeckCode (("A-1/ZZZ-9/A-1").toList) [⟨("A-1").toList⟩]
      = .error ⟨.validation, ("無効なカードIDが含まれます").toList⟩ :=
  ⟨by decide, by decide, by decide, by rfl, by rfl⟩

theorem c2_malformed_token_aborts_witness :
    decodeDeckCode (("AA-1/ZZZ-9/AA-1").toList) []
      = .error ⟨.validation, ("無効なカードIDが含まれます").toList⟩ :=
  c2_malformed_token_aborts (("AA-1/ZZZ-9/AA-1").toList) []
    (by decide) (by decide) (by decide) (by decide) (by decide)

/-! ## Claim C3 -/

/-- C3: step-7 per-tuple soft skip, in closed form over an arbitrary
5-digit tuple `c1..c5`.  `c5 ∈ {0,5}` discards the tuple; otherwise
`c5 ∈ [1,4]` selects the low table (`ex`,`A`..`I`) and `c5 ∈ [6,9]` the
high table (`prm`,`J`..`R`); a `c2 ∉ {1,2,3,4}` or a two-digit number
`c3c4 ∉ [1,50]` also discards it.  Both tables hold 10 entries, so a digit
`c1` is never out of range — that discard cannot fire on digit tuples.
Discarding returns `none` (never an error: the caller `filterMap`s), and
each surviving tuple contributes exactly `repeat` copies of its identifier
— `c5` for the low table, `c5 - 5` for the high one, i.e. `c5 % 5` — in
tuple order via `expandEntries`'s `flatMap`. -/
theorem c3_tuple_soft_skip (d1 d2 d3 d4 d5 : Nat)
    (h1 : d1 < 10) (h2 : d2 < 10) (h3 : d3 < 10) (h4 : d4 < 10) (h5 : d5 < 10) :
    processTuple [digitChar d1, digitChar d2, digitChar d3, digitChar d4, digitChar d5]
      = (if d5 = 0 ∨ d5 = 5 then none
         else if d2 = 0 ∨ 5 ≤ d2 then none
         else if d3 * 10 + d4 < 1 ∨ 50 < d3 * 10 + d4 then none
         else some (expansionOfChar ((if d5 ≤ 4 then MAP1_EXPANSION
             else MAP2_EXPANSION).getD d1 ' ')
           ++ typeCharOf d2 :: '-' :: natDigits (d3 * 10 + d4), d5)) ∧
    (∀ cid : List Char,
      expandEntries [(cid, d5)]
        = List.replicate (if d5 ≤ 4 then d5 else d5 - 5) cid) := by
  refine ⟨processTuple_digits d1 d2 d3 d4 d5 h1 h2 h3 h4 h5, ?_⟩
  intro cid
  unfold expandEntries
  rw [List.flatMap_cons, List.flatMap_nil, List.append_nil]
  by_cases hd : d5 ≤ 4
  · rw [if_pos hd]
    congr 1
    omega
  · rw [if_neg hd]
    congr 1
    omega

theorem c3_tuple_soft_skip_witness :
    processTuple (("01012").toList) = some ((("exA-1").toList), 2) ∧
    processTuple (("01010").toList) = none ∧
    expandEntries [((("exA-1").toList), 2)]
      = List.replicate 2 (("exA-1").toList) := by
  have h2 := c3_tuple_soft_skip 0 1 0 1 2 (by decide) (by decide) (by decide)
    (by decide) (by decide)
  have h0 := c3_tuple_soft_skip 0 1 0 1 0 (by decide) (by decide) (by decide)
    (by decide) (by decide)
  refine ⟨?_, ?_, ?_⟩
  · rw [show ("01012").toList
        = [digitChar 0, digitChar 1, digitChar 0, digitChar 1, digitChar 2] from rfl,
      h2.1]
    decide
  · rw [show ("01010").toList
        = [digitChar 0, digitChar 1, digitChar 0, digitChar 1, digitChar 0] from rfl,
      h0.1]
    decide
  · rw [h2.2 (("exA-1").toList)]
    decide

/-! ## Claim C4 -/

theorem kcgFinalNumericString_mod5 (raw : List Char) :
    (kcgFinalNumericString raw).length % 5 = 0 := by
  unfold kcgFinalNumericString
  rw [List.length_map, adjustedString_length]
  omega

theorem encodeEntry_error_type (cid : List Char) (count : Nat) (e : DeckCodeError)
    (h : encodeEntry cid count = .error e) : e.type = .generation := by
  unfold encodeEntry at h
  cases hf : cid.findIdx? (fun c => c = '-') with
  | none =>
    simp only [hf] at h
    injection h with h'
    rw [← h']
  | some si =>
    simp only [hf] at h
    cases hO : oLookup ((cid.take si).dropLast) with
    | none =>
      simp only [hO] at h
      injection h with h'
      rw [← h']
    | some oVal =>
      simp only [hO] at h
      cases hD : D_TABLE.find? (fun e =>
          e.1 = (cid.take si).drop ((cid.take si).length - 1)) with
      | none =>
        simp only [hD] at h
        injection h with h'
        rw [← h']
      | some dEntry =>
        simp only [hD] at h
        by_cases hcnt : count < 1 ∨ 4 < count
        · rw [if_pos hcnt] at h
          injection h with h'
          rw [← h']
        · rw [if_neg hcnt] at h
          exact Except.noConfusion h

theorem encodeNumericString_error_type :
    ∀ cs : List (List Char × Nat), ∀ e : DeckCodeError,
      encodeNumericString cs = .error e → e.type = .generation := by
  intro cs
  induction cs with
  | nil =>
    intro e h
    exact Except.noConfusion h
  | cons p rest ih =>
    intro e h
    obtain ⟨cid, count⟩ := p
    unfold encodeNumericString at h
    cases hf : encodeEntry cid count with
    | error e1 =>
      simp only [hf] at h
      injection h with h'
      exact h' ▸ encodeEntry_error_type cid count e1 hf
    | ok t =>
      simp only [hf] at h
      cases hr : encodeNumericString rest with
      | error e2 =>
        simp only [hr] at h
        injection h with h'
        exact h' ▸ ih e2 hr
      | ok r =>
        simp only [hr] at h
        exact Except.noConfusion h

theorem encodeKcg_error_type (ids : List (List Char)) (e : DeckCodeError)
    (h : encodeKcgDeckCode ids = .error e) : e.type = .generation := by
  unfold encodeKcgDeckCode at h
  cases hn : encodeNumericString (aggregateCounts ids) with
  | error e1 =>
    simp only [hn] at h
    injection h with h'
    exact h' ▸ encodeNumericString_error_type _ e1 hn
  | ok ns =>
    simp only [hn] at h
    split at h
    · injection h with h'
      rw [← h']
    · split at h
      · injection h with h'
        rw [← h']
      · split at h
        · injection h with h'
          rw [← h']
        · split at h
          · injection h with h'
            rw [← h']
          · exact Except.noConfusion h

/-- The encode-failure triggers, computed exactly as the encode loop does:
the identifier splits at its first `-`, and either the plain-object lookup
`O[expansion]` — prototype chain included, so that an inherited
`Object.prototype` name such as `constructor` does *not* count as a
violation — yields `undefined`, or the type letter is not a key of the `D`
table (`A`,`S`,`M`,`D`), or the aggregated count lies outside `[1,4]`. -/
def entryViolation (x : List Char × Nat) : Prop :=
  match x.1.findIdx? (fun c => c = '-') with
  | none => False
  | some splitIdx =>
    oLookup ((x.1.take splitIdx).dropLast) = none ∨
    D_TABLE.find? (fun e =>
      e.1 = (x.1.take splitIdx).drop ((x.1.take splitIdx).length - 1)) = none ∨
    x.2 < 1 ∨ 4 < x.2

theorem encodeEntry_error_of_violation (x : List Char × Nat) (hv : entryViolation x) :
    ∃ e, encodeEntry x.1 x.2 = .error e := by
  unfold entryViolation at hv
  unfold encodeEntry
  cases hf : x.1.findIdx? (fun c => c = '-') with
  | none =>
    rw [hf] at hv
    exact hv.elim
  | some si =>
    rw [hf] at hv
    simp only [hf]
    cases hO : oLookup ((x.1.take si).dropLast) with
    | none =>
      simp only [hO]
      exact ⟨_, rfl⟩
    | some oVal =>
      simp only [hO]
      cases hD : D_TABLE.find? (fun e =>
          e.1 = (x.1.take si).drop ((x.1.take si).length - 1)) with
      | none =>
        simp only [hD]
        exact ⟨_, rfl⟩
      | some dEntry =>
        simp only [hD]
        rcases hv with hv | hv | hv | hv
        · exact absurd hO (hv ▸ fun hc => Option.noConfusion hc)
        · exact absurd hD (hv ▸ fun hc => Option.noConfusion hc)
        · rw [if_pos (Or.inl hv)]
          exact ⟨_, rfl⟩
        · rw [if_pos (Or.inr hv)]
          exact ⟨_, rfl⟩

theorem encodeNumericString_error_of_mem :
    ∀ cs : List (List Char × Nat), ∀ x ∈ cs,
      (∃ e, encodeEntry x.1 x.2 = .error e) →
      ∃ e, encodeNumericString cs = .error e := by
  intro cs
  induction cs with
  | nil =>
    intro x hx _
    exact absurd hx (List.not_mem_nil x)
  | cons p rest ih =>
    intro x hx he
    obtain ⟨cid, count⟩ := p
    unfold encodeNumericString
    cases hf : encodeEntry cid count with
    | error e1 =>
      simp only [hf]
      exact ⟨e1, rfl⟩
    | ok t =>
      rcases List.mem_cons.mp hx with hx' | hx'
      · obtain ⟨e, he⟩ := he
        rw [hx'] at he
        rw [he] at hf
        exact Except.noConfusion hf
      · obtain ⟨e2, hr⟩ := ih x hx' he
        simp only [hf, hr]
        exact ⟨e2, rfl⟩

theorem decodeKcg_ok_of_clean (code : List Char)
    (h1 : code.take 4 = ("KCG-").toList) (h2 : code.drop 4 ≠ [])
    (h3 : (code.drop 4).find? (fun c => ¬ kcgCharSetHas c) = none) :
    decodeKcgDeckCode code
      = .ok (expandEntries
          ((chunks5 (kcgFinalNumericString (code.drop 4))).filterMap processTuple)) := by
  unfold decodeKcgDeckCode
  rw [if_neg (not_not_intro h1), if_neg h2]
  simp only [h3]
  rw [if_neg (by rw [kcgFinalNumericString_mod5]; omega)]

theorem decodeKcg_error_type (code : List Char) (e : DeckCodeError)
    (h : decodeKcgDeckCode code = .error e) : e.type = .validation := by
  by_cases h1 : code.take 4 = ("KCG-").toList
  · by_cases h2 : code.drop 4 = []
    · unfold decodeKcgDeckCode at h
      rw [if_neg (not_not_intro h1), if_pos h2] at h
      injection h with h'
      rw [← h']
    · cases h3 : (code.drop 4).find? (fun c => ¬ kcgCharSetHas c) with
      | some c =>
        unfold decodeKcgDeckCode at h
        rw [if_neg (not_not_intro h1), if_neg h2] at h
        simp only [h3] at h
        injection h with h'
        rw [← h']
      | none =>
        rw [decodeKcg_ok_of_clean code h1 h2 h3] at h
        exact Except.noConfusion h
  · unfold decodeKcgDeckCode at h
    rw [if_pos h1] at h
    injection h with h'
    rw [← h']

/-- C4 (corrected): hard failure at the edges.  `decodeKcgDeckCode` fails
exactly when the `KCG-` prefix is missing, the remaining payload is empty,
or a payload character is outside the 64-symbol alphabet, and every decode
error is tagged `validation`; every encode error is tagged `generation`,
and any aggregated entry whose *plain-object* expansion lookup — prototype
chain included — yields `undefined`, whose type letter is not
`A`/`S`/`M`/`D`, or whose count lies outside `[1,4]` makes
`encodeKcgDeckCode` fail with such a `generation` error, aborting the
whole operation.  The original claim's trigger "expansion not in the two
lookup tables" is too wide: an expansion that names an inherited
`Object.prototype` member (`constructor`, `toString`, …) is in neither
table, yet `O[expansion]` finds the inherited value, no error is thrown,
and the encode completes — see the counterexample. -/
theorem c4_edge_failures (code : List Char) (ids : List (List Char)) :
    ((∃ e, decodeKcgDeckCode code = .error e) ↔
      (code.take 4 ≠ ("KCG-").toList ∨ code.drop 4 = [] ∨
        ∃ c ∈ code.drop 4, kcgCharSetHas c = false)) ∧
    (∀ e, decodeKcgDeckCode code = .error e → e.type = .validation) ∧
    (∀ e, encodeKcgDeckCode ids = .error e → e.type = .generation) ∧
    ((∃ x ∈ aggregateCounts ids, entryViolation x) →
      ∃ e, encodeKcgDeckCode ids = .error e ∧ e.type = .generation) := by
  refine ⟨⟨?_, ?_⟩, fun e he => decodeKcg_error_type code e he,
    fun e he => encodeKcg_error_type ids e he, ?_⟩
  · intro ⟨e, he⟩
    by_cases h1 : code.take 4 = ("KCG-").toList
    · by_cases h2 : code.drop 4 = []
      · exact Or.inr (Or.inl h2)
      · refine Or.inr (Or.inr ?_)
        cases h3 : (code.drop 4).find? (fun c => ¬ kcgCharSetHas c) with
        | some c =>
          have hc := List.find?_some h3
          have hm := List.mem_of_find?_eq_some h3
          refine ⟨c, hm, ?_⟩
          simpa using hc
        | none =>
          rw [decodeKcg_ok_of_clean code h1 h2 h3] at he
          exact Except.noConfusion he
    · exact Or.inl h1
  · intro hbad
    unfold decodeKcgDeckCode
    by_cases h1 : code.take 4 = ("KCG-").toList
    · rw [if_neg (not_not_intro h1)]
      by_cases h2 : code.drop 4 = []
      · rw [if_pos h2]
        exact ⟨_, rfl⟩
      · rw [if_neg h2]
        rcases hbad with hb | hb | hb
        · exact absurd h1 hb
        · exact absurd hb h2
        · obtain ⟨c, hcm, hcv⟩ := hb
          cases h3 : (code.drop 4).find? (fun c => ¬ kcgCharSetHas c) with
          | some c' =>
            simp only [h3]
            exact ⟨_, rfl⟩
          | none =>
            have := List.find?_eq_none.mp h3 c hcm
            simp [hcv] at this
    · rw [if_pos h1]
      exact ⟨_, rfl⟩
  · intro ⟨x, hx, hv⟩
    obtain ⟨e, hns⟩ := encodeNumericString_error_of_mem (aggregateCounts ids) x hx
      (encodeEntry_error_of_violation x hv)
    have henc : encodeKcgDeckCode ids = .error e := by
      unfold encodeKcgDeckCode
      simp only [hns]
    exact ⟨e, henc, encodeKcg_error_type ids e henc⟩

set_option maxRecDepth 8192 in
/-- C4 counterexample to the claim as stated: the expansion `constructor`
of the identifier `constructorA-1` is a key of neither lookup table (and
its type `A` and count `1` are unobjectionable), yet `encodeKcgDeckCode`
does not throw the claimed `generation` error — the plain-object lookup
`O["constructor"]` finds `Object.prototype.constructor`, `parseInt` of its
string coercion is NaN, the garbage flows through the NaN-tolerant binary
stages, and the encode returns a code. -/
theorem c4_edge_failures_counterexample :
    (("constructor").toList ∉ O_TABLE.map Prod.fst) ∧
    (∃ code, encodeKcgDeckCode [(("constructorA-1").toList)] = .ok code) := by
  refine ⟨by decide, ⟨_, rfl⟩⟩

theorem c4_edge_failures_witness :
    (∃ e, decodeKcgDeckCode (("ABC").toList) = .error e) ∧
    (∃ e, encodeKcgDeckCode [(("SA-1").toList)] = .error e ∧
      e.type = .generation) := by
  constructor
  · exact (c4_edge_failures (("ABC").toList) []).1.mpr (Or.inl (by decide))
  · exact (c4_edge_failures [] [(("SA-1").toList)]).2.2.2
      ⟨((("SA-1").toList), 1), by decide, Or.inl rfl⟩

/-! ## Claim C6 -/

/-- Modelled from the spec's words for the step-6 scan: remove the last `k`
occurrences of `'X'` (all of them when fewer than `k` exist), keeping
everything else.  A character is removed exactly when it is an `'X'` and
fewer than `k` `'X'`s follow it. -/
def dropLastXs : List Char → Nat → List Char
  | [], _ => []
  | c :: t, k =>
    if c = 'X' ∧ t.count 'X' < k then dropLastXs t k else c :: dropLastXs t k

theorem dropLastXs_zero : ∀ s : List Char, dropLastXs s 0 = s := by
  intro s
  induction s with
  | nil => rfl
  | cons c t ih =>
    unfold dropLastXs
    rw [if_neg (fun h => absurd h.2 (by omega)), ih]

theorem dropLastXs_cons (c : Char) (t : List Char) (k : Nat) :
    dropLastXs (c :: t) k
      = if c = 'X' ∧ t.count 'X' < k then dropLastXs t k else c :: dropLastXs t k := rfl

theorem removeXFromEnd_eq_dropLastXs :
    ∀ s : List Char, ∀ k : Nat,
      removeXFromEnd s k = (dropLastXs s k, k - min k (s.count 'X')) := by
  intro s
  induction s with
  | nil => intro k; simp [removeXFromEnd, dropLastXs]
  | cons c t ih =>
    intro k
    rw [removeXFromEnd_cons c t k _ _ (ih k)]
    have hcnt : (c :: t).count 'X' = t.count 'X' + if c = 'X' then 1 else 0 := by
      rw [List.count_cons]
      by_cases hc : c = 'X' <;> simp [hc]
    by_cases hc : c = 'X'
    · by_cases hlt : t.count 'X' < k
      · rw [if_pos ⟨hc, by omega⟩, dropLastXs_cons, if_pos ⟨hc, hlt⟩, hcnt, if_pos hc,
          Prod.mk.injEq]
        exact ⟨rfl, by omega⟩
      · rw [if_neg (by omega : ¬(c = 'X' ∧ 0 < k - min k (t.count 'X'))),
          dropLastXs_cons, if_neg (by omega : ¬(c = 'X' ∧ t.count 'X' < k)),
          hcnt, if_pos hc, Prod.mk.injEq]
        exact ⟨rfl, by omega⟩
    · rw [if_neg (by simp [hc]), dropLastXs_cons, if_neg (by simp [hc]),
        hcnt, if_neg hc, Prod.mk.injEq]
      exact ⟨rfl, by omega⟩

/-- C6: the step-6 trailing adjustment, characterized in the spec's terms.
For every intermediate string `s`, with `e = s.length % 5` and
`k = min e (number of X placeholders in s)`: the adjustment first deletes
the *last* `k` placeholder `'X'` characters (scanning from the end,
anywhere in the string), then deletes the remaining `e - k` characters —
real digits included — from the end, so that exactly `e` characters are
removed in total; afterwards (in `kcgFinalNumericString`) every remaining
`'X'` is replaced by `'0'`, leaving none. -/
theorem c6_trailing_adjustment (s : List Char) :
    adjustedString s
      = (dropLastXs s (s.length % 5)).take
          ((dropLastXs s (s.length % 5)).length
            - (s.length % 5 - min (s.length % 5) (s.count 'X'))) ∧
    (adjustedString s).length = s.length - s.length % 5 ∧
    'X' ∉ (adjustedString s).map (fun ch => if ch = 'X' then '0' else ch) := by
  refine ⟨?_, adjustedString_length s, ?_⟩
  · unfold adjustedString
    by_cases h0 : s.length % 5 = 0
    · rw [if_pos h0, h0, dropLastXs_zero s]
      simp
    · rw [if_neg h0, removeXFromEnd_eq_dropLastXs s (s.length % 5)]
  · intro hmem
    obtain ⟨c, _, hc⟩ := List.mem_map.mp hmem
    by_cases h : c = 'X' <;> simp [h] at hc

/-- C7: alphabet integrity.  The flattened 8×8 character matrix has exactly
64 pairwise-distinct symbols, the dedup-counting size check
(`KCG_CHAR_INDEX.size !== 64`, whose failure is a fatal startup throw)
computes exactly 64 for the matrix as written — so the throw branch is
unreachable — and index lookup is a bijection: every position `i < 64`
round-trips through its symbol. -/
theorem c7_alphabet_integrity :
    KCG_CHAR_MAP.length = 64 ∧ KCG_CHAR_MAP.Nodup ∧ kcgCharIndexSize = 64 ∧
    (∀ i : Fin 64, kcgCharIndex (KCG_CHAR_MAP.getD i.val ' ') = some i.val) := by
  refine ⟨rfl, by decide, by decide, by decide⟩

/-- C8: determinism.  The codec functions are modelled as pure Lean
functions of their arguments — faithful to the source, which reads only its
arguments and the fixed module-level lookup tables — so two calls on the
same arguments are definitionally the same result, error or not. -/
theorem c8_determinism (code : List Char) (cards : List Card)
    (ids : List (List Char)) :
    decodeDeckCode code cards = decodeDeckCode code cards ∧
    decodeKcgDeckCode code = decodeKcgDeckCode code ∧
    encodeKcgDeckCode ids = encodeKcgDeckCode ids :=
  ⟨rfl, rfl, rfl⟩

/-- C9: the empty deck is outside the compact encoder's domain.  On `[]` the
aggregation and the encode loop yield the empty numeric string, the binary
string stays empty even after padding, the `/.{1,3}/g` match on the empty
string is `null`, and `encodeKcgDeckCode` throws the `generation` split
error. -/
theorem c9_empty_deck_encode :
    encodeNumericString (aggregateCounts []) = .ok [] ∧
    regexChunks3 [] = none ∧
    encodeKcgDeckCode []
      = .error ⟨.generation, ("バイナリ文字列の分割に失敗しました").toList⟩ :=
  ⟨rfl, rfl, rfl⟩

theorem error_message_ne {α : Type} (t1 t2 : DeckCodeErrorType) (m1 m2 : List Char)
    (h : m1 ≠ m2) :
    (Except.error ⟨t1, m1⟩ : Except DeckCodeError α) ≠ Except.error ⟨t2, m2⟩ := by
  intro hc
  apply h
  have hm := congrArg (fun x : Except DeckCodeError α =>
    match x with
    | .error e => e.message
    | .ok _ => ([] : List Char)) hc
  simpa using hm

/-- C10: the step-6 adjustment always yields a length divisible by 5 —
exactly `length mod 5` characters are removed — so the decoder's
"final numeric string length is not a multiple of 5" `validation` branch
can never fire: no input makes `decodeKcgDeckCode` return that error. -/
theorem c10_mod5_guard_unreachable (raw code : List Char) :
    (kcgFinalNumericString raw).length % 5 = 0 ∧
    decodeKcgDeckCode code
      ≠ .error ⟨.validation,
          ("最終的な数値文字列の長さが5の倍数ではありません").toList⟩ := by
  refine ⟨kcgFinalNumericString_mod5 raw, ?_⟩
  unfold decodeKcgDeckCode
  by_cases h1 : code.take 4 ≠ "KCG-".toList
  · rw [if_pos h1]
    exact error_message_ne _ _ _ _ (by decide)
  · rw [if_neg h1]
    by_cases h2 : code.drop 4 = []
    · rw [if_pos h2]
      exact error_message_ne _ _ _ _ (by decide)
    · rw [if_neg h2]
      cases hf : (code.drop 4).find? (fun c => ¬ kcgCharSetHas c) with
      | some c =>
        simp only [hf]
        apply error_message_ne
        intro he
        have hl := congrArg List.length he
        rw [List.length_append, List.length_singleton] at hl
        revert hl
        decide
      | none =>
        simp only [hf]
        rw [if_neg]
        · intro hc
          exact Except.noConfusion hc
        · rw [kcgFinalNumericString_mod5]
          omega

end Kcg
